import Mathlib

/-!
Verification of the backtesting core in
`src/examples/python_backtest_comparison.py` against its natural-language
specification.

The shallow embedding below translates the Python source into Lean.
Prices, cash and share quantities are modelled as exact rationals; the
source works in IEEE floats, but every claim under scrutiny is about the
exact arithmetic of the formulas (the spec itself says "must be exactly").
Pandas NaN propagation (rolling-window warm-up, `diff` at index 0,
`std` of fewer than two samples) is modelled with `Option`: `none` is NaN,
and all NaN comparisons are false, as in IEEE semantics.
-/

namespace PyBacktest

/-- A trading signal, the values `1`, `-1`, `0` used by the source. -/
inductive Signal
  | buy
  | sell
  | hold
  deriving DecidableEq

/-- The `'type'` field of a trade record (`'buy'` or `'sell'`). -/
inductive Side
  | buy
  | sell
  deriving DecidableEq

/-- One entry of the `trades` list built by `TradingStrategy.backtest`
(lines 67-72 and 77-82): `date` is the bar index, `side` the `'type'`
field, plus the recorded execution `price` and `shares` quantity. -/
structure Trade where
  date : Nat
  side : Side
  price : ℚ
  shares : ℚ
  deriving DecidableEq

/-- The loop state of `TradingStrategy.backtest`: `cash`, `position`
(shares held) and the append-only `trades` log. -/
structure PState where
  cash : ℚ
  position : ℚ
  trades : List Trade
  deriving DecidableEq

/-- Placeholder state used as the default of `List.getD` lookups. -/
def dummySt : PState := PState.mk 0 0 []

/-- Placeholder trade used as the default of `List.getD` lookups. -/
def dummyTr : Trade := Trade.mk 0 Side.buy 0 0

/-- One iteration of the bar loop of `TradingStrategy.backtest`
(source lines 57-83): on a Buy signal while flat, convert all cash to
shares at price times `(1 + commission + slippage)` and append a buy
record; on a Sell signal while long, liquidate at price times
`(1 - commission - slippage)` and append a sell record; otherwise leave
the state unchanged. `c` is `self.commission`, `s` is `self.slippage`,
`i` the bar index (the `date` of any trade record). -/
def stepBar (c s : ℚ) (i : Nat) (price : ℚ) (signal : Signal) (st : PState) : PState :=
  if signal = Signal.buy ∧ st.position = 0 then
    PState.mk
      (st.cash - st.cash / (price * (1 + c + s)) * price * (1 + c + s))
      (st.cash / (price * (1 + c + s)))
      (st.trades ++ [Trade.mk i Side.buy price (st.cash / (price * (1 + c + s)))])
  else if signal = Signal.sell ∧ 0 < st.position then
    PState.mk
      (st.cash + st.position * price * (1 - c - s))
      0
      (st.trades ++ [Trade.mk i Side.sell price st.position])
  else
    st

/-- The list of loop states produced by the bar loop, one per processed
bar, starting at bar index `i`.  Mirrors `for i in range(1, len(df))`
writing the `position`/`cash`/`trades` columns row by row. -/
def runAux (c s : ℚ) : List ℚ → List Signal → Nat → PState → List PState
  | p :: ps, g :: gs, i, st =>
      stepBar c s i p g st :: runAux c s ps gs (i + 1) (stepBar c s i p g st)
  | _, _, _, _ => []

/-- The per-bar state trajectory of `TradingStrategy.backtest`: index 0
is the initial state (`cash = initial_capital`, no shares, empty log, as
initialised on lines 46-55), and bar `i ≥ 1` holds the state after the
loop body ran for that bar. -/
def backtest (capital c s : ℚ) (closes : List ℚ) (sigs : List Signal) : List PState :=
  PState.mk capital 0 [] ::
    runAux c s (closes.drop 1) (sigs.drop 1) 1 (PState.mk capital 0 [])

/-- State of the trajectory at bar `i` (a total lookup). -/
def trajAt (capital c s : ℚ) (closes : List ℚ) (sigs : List Signal) (i : Nat) : PState :=
  (backtest capital c s closes sigs).getD i dummySt

/-- The `portfolio_value` column: row 0 keeps `initial_capital`, row `i`
is `cash + position * close` of that bar (line 88). -/
def equityCurve (capital c s : ℚ) (closes : List ℚ) (sigs : List Signal) : List ℚ :=
  List.zipWith (fun st p => st.cash + st.position * p)
    (backtest capital c s closes sigs) closes

/-- The state after the whole bar loop has run (no trajectory kept). -/
def simEnd (c s : ℚ) : List ℚ → List Signal → Nat → PState → PState
  | p :: ps, g :: gs, i, st => simEnd c s ps gs (i + 1) (stepBar c s i p g st)
  | _, _, _, st => st

/-- `df['portfolio_value'].iloc[-1]` (line 97): equity of the last bar. -/
def finalValue (capital c s : ℚ) (closes : List ℚ) (sigs : List Signal) : ℚ :=
  (equityCurve capital c s closes sigs).getLastD 0

/-- `total_return` (line 98). -/
def totalReturn (capital c s : ℚ) (closes : List ℚ) (sigs : List Signal) : ℚ :=
  (finalValue capital c s closes sigs - capital) / capital

/-- `pct_change().dropna()` (line 92): bar-over-bar fractional changes. -/
def dailyReturns (values : List ℚ) : List ℚ :=
  List.zipWith (fun prev cur => (cur - prev) / prev) values (values.drop 1)

/-- The trade log strictly alternates Buy, Sell, Buy, Sell, ... starting
with Buy: entries at even positions are buys, at odd positions sells. -/
def alternates (l : List Trade) : Prop :=
  ∀ i, i < l.length →
    (l.getD i dummyTr).side = if i % 2 = 0 then Side.buy else Side.sell

/-- "Cash equals exactly the remainder computed at the most recent Buy":
there is a bar `j ≤ i` at which a Buy trade `t` was appended, whose cash
is exactly the remainder `cash - shares * price * (1 + c + s)` of the
pre-buy cash, and since bar `j` neither cash nor the trade log changed;
the log's last entry is that Buy (so no Sell follows it). -/
def buyAnchored (capital c s : ℚ) (closes : List ℚ) (sigs : List Signal)
    (i : Nat) : Prop :=
  ∃ j t, 0 < j ∧ j ≤ i ∧
    (trajAt capital c s closes sigs j).trades =
      (trajAt capital c s closes sigs (j - 1)).trades ++ [t] ∧
    t.side = Side.buy ∧
    t.shares =
      (trajAt capital c s closes sigs (j - 1)).cash / (t.price * (1 + c + s)) ∧
    (trajAt capital c s closes sigs j).cash =
      (trajAt capital c s closes sigs (j - 1)).cash -
        t.shares * t.price * (1 + c + s) ∧
    (trajAt capital c s closes sigs i).cash =
      (trajAt capital c s closes sigs j).cash ∧
    (trajAt capital c s closes sigs i).trades =
      (trajAt capital c s closes sigs j).trades ∧
    (trajAt capital c s closes sigs i).trades.getLast? = some t

/-- Internal induction invariant of the bar loop: the log alternates,
the position is long exactly when the log has odd length, the position
is never negative, flat states hold positive cash, and long states hold
exactly the zero remainder left by the buy. -/
def Inv (st : PState) : Prop :=
  alternates st.trades ∧
  (0 < st.position ↔ st.trades.length % 2 = 1) ∧
  (st.position = 0 ∨ 0 < st.position) ∧
  (st.position = 0 → 0 < st.cash) ∧
  (0 < st.position → st.cash = 0)

/-- Tail worker of the expanding maximum: carries the running peak. -/
def expandingMaxAux (peak : ℚ) : List ℚ → List ℚ
  | [] => []
  | v :: vs => max peak v :: expandingMaxAux (max peak v) vs

/-- `portfolio_values.expanding(min_periods=1).max()` (line 110). -/
def expandingMax : List ℚ → List ℚ
  | [] => []
  | v :: vs => v :: expandingMaxAux v vs

/-- `(portfolio_values - peak) / peak` (line 111), elementwise. -/
def drawdowns (l : List ℚ) : List ℚ :=
  List.zipWith (fun v pk => (v - pk) / pk) l (expandingMax l)

/-- Minimum of a list of rationals (`Series.min()`), 0 on empty input. -/
def listMin : List ℚ → ℚ
  | [] => 0
  | v :: vs => vs.foldl min v

/-- Maximum of a list of rationals, 0 on empty input. -/
def listMax : List ℚ → ℚ
  | [] => 0
  | v :: vs => vs.foldl max v

/-- `_calculate_max_drawdown` (lines 108-112): the minimum drawdown. -/
def calculate_max_drawdown (l : List ℚ) : ℚ := listMin (drawdowns l)

/-- Spec-side running peak: the maximum value at or before bar `i`
(inclusive). -/
def peakSpec (l : List ℚ) (i : Nat) : ℚ := listMax (l.take (i + 1))

/-- The trajectory never decreases from one bar to the next. -/
def nonDecr (l : List ℚ) : Prop :=
  ∀ i, i + 1 < l.length → l.getD i 0 ≤ l.getD (i + 1) 0

/-- The loop of `_calculate_win_rate` (lines 119-125): trades are
consumed two at a time, `(trades[i-1], trades[i])` for odd `i`; a pair
counts iff the second (sell) price strictly exceeds the first (buy)
price; a trailing unpaired trade is skipped. -/
def winCount : List Trade → Nat
  | a :: b :: rest => (if a.price < b.price then 1 else 0) + winCount rest
  | _ => 0

/-- `_calculate_win_rate` (lines 114-128). -/
def calculate_win_rate (trades : List Trade) : ℚ :=
  if trades.length < 2 then 0
  else if 0 < trades.length / 2 then
    (winCount trades : ℚ) / ((trades.length / 2 : Nat) : ℚ)
  else 0

/-- Spec-side pair wins: the number of indices `i < floor(n/2)` whose
pair `(trades[2i], trades[2i+1])` has sell price > buy price. -/
def winPairsSpec (trades : List Trade) : Nat :=
  ((List.range (trades.length / 2)).filter
    (fun i => decide ((trades.getD (2 * i) dummyTr).price <
      (trades.getD (2 * i + 1) dummyTr).price))).length

/-- `Series.mean()`: the arithmetic mean (junk value 0 on empty input,
where pandas would give NaN; only used by the code after a nonemptiness
guard). -/
def mean (xs : List ℚ) : ℚ := xs.sum / (xs.length : ℚ)

/-- `Series.std()` with pandas default `ddof=1`, squared: NaN (`none`)
when fewer than two observations, else the sample variance.  The float
std is its square root, so std is zero/NaN exactly when this is. -/
def sampleVar? (xs : List ℚ) : Option ℚ :=
  if xs.length < 2 then none
  else some ((xs.map (fun x => (x - mean xs) ^ 2)).sum / ((xs.length : ℚ) - 1))

/-- Result of `_calculate_sharpe_ratio` in exact form: `zero` is the
0.0 sentinel; `value e v` is the defined float
`e / sqrt (252 * v)` (with `e` the annualized excess mean and `v` the
sample variance, `v ≠ 0`); `nan` marks the IEEE NaN outcome. -/
inductive SharpeResult
  | nan
  | zero
  | value (excess : ℚ) (variance : ℚ)
  deriving DecidableEq

/-- `_calculate_sharpe_ratio` (lines 130-135): the guard
`len(returns) == 0 or returns.std() == 0` short-circuits on emptiness;
a NaN std compares unequal to 0, so a one-element series reaches the
division and yields NaN. -/
def calculate_sharpe (rf : ℚ) (xs : List ℚ) : SharpeResult :=
  if xs.length = 0 then SharpeResult.zero
  else
    match sampleVar? xs with
    | none => SharpeResult.nan
    | some v =>
        if v = 0 then SharpeResult.zero
        else SharpeResult.value (mean xs * 252 - rf) v

/-- Result of `returns.std() * np.sqrt(252)` (line 103) in exact form:
`value v` is the float `sqrt (252 * v)`; `nan` the IEEE NaN outcome. -/
inductive VolResult
  | nan
  | value (variance : ℚ)
  deriving DecidableEq

/-- Annualized volatility as computed on line 103: NaN exactly when the
sample std is NaN (fewer than two returns). -/
def volatility (xs : List ℚ) : VolResult :=
  match sampleVar? xs with
  | none => VolResult.nan
  | some v => VolResult.value v

/-- IEEE-style `>` on possibly-NaN values: false if either is NaN. -/
def nanGT : Option ℚ → Option ℚ → Bool
  | some x, some y => decide (y < x)
  | _, _ => false

/-- IEEE-style `<` on possibly-NaN values: false if either is NaN. -/
def nanLT : Option ℚ → Option ℚ → Bool
  | some x, some y => decide (x < y)
  | _, _ => false

/-- IEEE-style `<=` on possibly-NaN values: false if either is NaN. -/
def nanLE : Option ℚ → Option ℚ → Bool
  | some x, some y => decide (x ≤ y)
  | _, _ => false

/-- IEEE-style `>=` on possibly-NaN values: false if either is NaN. -/
def nanGE : Option ℚ → Option ℚ → Bool
  | some x, some y => decide (y ≤ x)
  | _, _ => false

/-- `close.rolling(window=w).mean()` at row `i` (line 147): NaN during
the warm-up (`i < w - 1`), else the mean of the window
`closes[i-w+1..i]`. -/
def smaAt (w : Nat) (closes : List ℚ) (i : Nat) : Option ℚ :=
  if i + 1 < w then none
  else some ((((closes.drop (i + 1 - w)).take w).sum) / (w : ℚ))

/-- The loop body of `SMAStrategy.generate_signals` (lines 152-165) at
bar `i ≥ 1`: Buy on `fast > slow` now and `fast <= slow` before, with
`isna` guards on the current values; NaN comparisons are false. -/
def smaSignalAt (wf ws : Nat) (closes : List ℚ) (i : Nat) : Signal :=
  if nanGT (smaAt wf closes i) (smaAt ws closes i) &&
      nanLE (smaAt wf closes (i - 1)) (smaAt ws closes (i - 1)) &&
      (smaAt wf closes i).isSome && (smaAt ws closes i).isSome then
    Signal.buy
  else if nanLT (smaAt wf closes i) (smaAt ws closes i) &&
      nanGE (smaAt wf closes (i - 1)) (smaAt ws closes (i - 1)) &&
      (smaAt wf closes i).isSome && (smaAt ws closes i).isSome then
    Signal.sell
  else Signal.hold

/-- `SMAStrategy.generate_signals` (lines 145-167): zeros, then the loop
from index 1. -/
def smaSignals (wf ws : Nat) (closes : List ℚ) : List Signal :=
  (List.range closes.length).map fun i =>
    if i = 0 then Signal.hold else smaSignalAt wf ws closes i

/-- `Series.ewm(span=n).mean()` at row `t` with the pandas defaults
(`adjust=True`): the weighted mean with weights `(1 - a)^j`,
`a = 2 / (n + 1)`, over rows `t, t-1, ..., 0`.  Always defined. -/
def emaAt (span : Nat) (xs : List ℚ) (t : Nat) : ℚ :=
  (((List.range (t + 1)).map
      fun j => (1 - 2 / ((span : ℚ) + 1)) ^ j * xs.getD (t - j) 0).sum) /
    (((List.range (t + 1)).map fun j => (1 - 2 / ((span : ℚ) + 1)) ^ j).sum)

/-- The loop body of `EMAStrategy.generate_signals` (lines 184-195). -/
def emaSignalAt (nf ns : Nat) (closes : List ℚ) (i : Nat) : Signal :=
  if emaAt nf closes i > emaAt ns closes i ∧
      emaAt nf closes (i - 1) ≤ emaAt ns closes (i - 1) then Signal.buy
  else if emaAt nf closes i < emaAt ns closes i ∧
      emaAt nf closes (i - 1) ≥ emaAt ns closes (i - 1) then Signal.sell
  else Signal.hold

/-- `EMAStrategy.generate_signals` (lines 177-197). -/
def emaSignals (nf ns : Nat) (closes : List ℚ) : List Signal :=
  (List.range closes.length).map fun i =>
    if i = 0 then Signal.hold else emaSignalAt nf ns closes i

/-- `close.diff()` at row `i` (line 212): NaN at row 0. -/
def deltaAt (closes : List ℚ) (i : Nat) : Option ℚ :=
  if i = 0 then none else some (closes.getD i 0 - closes.getD (i - 1) 0)

/-- `delta.where(delta > 0, 0)` at row `i` (line 213): the NaN delta at
row 0 fails the `> 0` test and is replaced by 0. -/
def gainAt (closes : List ℚ) (i : Nat) : ℚ :=
  match deltaAt closes i with
  | some d => if 0 < d then d else 0
  | none => 0

/-- `-delta.where(delta < 0, 0)` at row `i` (line 214). -/
def lossAt (closes : List ℚ) (i : Nat) : ℚ :=
  match deltaAt closes i with
  | some d => if d < 0 then -d else 0
  | none => 0

/-- `gain.rolling(window=w).mean()` at row `i` (line 213). -/
def avgGainAt (w : Nat) (closes : List ℚ) (i : Nat) : Option ℚ :=
  if i + 1 < w then none
  else some ((((List.range w).map fun j => gainAt closes (i - j)).sum) / (w : ℚ))

/-- `loss.rolling(window=w).mean()` at row `i` (line 214). -/
def avgLossAt (w : Nat) (closes : List ℚ) (i : Nat) : Option ℚ :=
  if i + 1 < w then none
  else some ((((List.range w).map fun j => lossAt closes (i - j)).sum) / (w : ℚ))

/-- `rsi = 100 - 100 / (1 + gain/loss)` (lines 215-216) under float
semantics: warm-up rows are NaN; a zero average loss gives
`rs = gain / 0`, which is `+inf` (so RSI exactly 100) when the average
gain is positive and `0 / 0 = NaN` (so RSI NaN) when it is zero. -/
def rsiAt (w : Nat) (closes : List ℚ) (i : Nat) : Option ℚ :=
  match avgGainAt w closes i, avgLossAt w closes i with
  | some g, some l =>
      if l = 0 then (if g = 0 then none else some 100)
      else some (100 - 100 / (1 + g / l))
  | _, _ => none

/-- The loop body of `RSIStrategy.generate_signals` (lines 220-229):
Buy when RSI crosses up through `oversold`, Sell when it crosses down
through `overbought`; NaN comparisons are false. -/
def rsiSignalAt (w : Nat) (os ob : ℚ) (closes : List ℚ) (i : Nat) : Signal :=
  if nanGT (rsiAt w closes i) (some os) &&
      nanLE (rsiAt w closes (i - 1)) (some os) then Signal.buy
  else if nanLT (rsiAt w closes i) (some ob) &&
      nanGE (rsiAt w closes (i - 1)) (some ob) then Signal.sell
  else Signal.hold

/-- `RSIStrategy.generate_signals` (lines 208-231). -/
def rsiSignals (w : Nat) (os ob : ℚ) (closes : List ℚ) : List Signal :=
  (List.range closes.length).map fun i =>
    if i = 0 then Signal.hold else rsiSignalAt w os ob closes i

/-- `df['macd']` at row `i` (lines 246-248): fast EMA minus slow EMA. -/
def macdAt (nf ns : Nat) (closes : List ℚ) (i : Nat) : ℚ :=
  emaAt nf closes i - emaAt ns closes i

/-- The whole `df['macd']` column. -/
def macdLine (nf ns : Nat) (closes : List ℚ) : List ℚ :=
  (List.range closes.length).map fun i => macdAt nf ns closes i

/-- `df['macd_signal']` at row `i` (line 249): EMA of the MACD column. -/
def macdSignalLineAt (nf ns nsig : Nat) (closes : List ℚ) (i : Nat) : ℚ :=
  emaAt nsig (macdLine nf ns closes) i

/-- The loop body of `MACDStrategy.generate_signals` (lines 254-265). -/
def macdSignalAt (nf ns nsig : Nat) (closes : List ℚ) (i : Nat) : Signal :=
  if macdAt nf ns closes i > macdSignalLineAt nf ns nsig closes i ∧
      macdAt nf ns closes (i - 1) ≤
        macdSignalLineAt nf ns nsig closes (i - 1) then Signal.buy
  else if macdAt nf ns closes i < macdSignalLineAt nf ns nsig closes i ∧
      macdAt nf ns closes (i - 1) ≥
        macdSignalLineAt nf ns nsig closes (i - 1) then Signal.sell
  else Signal.hold

/-- `MACDStrategy.generate_signals` (lines 242-267). -/
def macdSignals (nf ns nsig : Nat) (closes : List ℚ) : List Signal :=
  (List.range closes.length).map fun i =>
    if i = 0 then Signal.hold else macdSignalAt nf ns nsig closes i

/-- C1: the simulator is the spec's state machine.  When flat
(`position == 0`) and the signal is Buy, the step buys
`cash / (price * (1 + commission + slippage))` shares, sets cash to
exactly `cash - shares * price * (1 + commission + slippage)` and appends
a Buy trade record; when long (`position > 0`) and the signal is Sell, it
adds `position * price * (1 - commission - slippage)` to cash, zeroes the
position and appends a Sell record; every other state/signal combination
leaves cash, position and the trade log unchanged. -/
theorem C1_state_machine (c s : ℚ) (i : Nat) (price : ℚ) (st : PState) :
    (st.position = 0 →
      stepBar c s i price Signal.buy st =
        PState.mk
          (st.cash - st.cash / (price * (1 + c + s)) * price * (1 + c + s))
          (st.cash / (price * (1 + c + s)))
          (st.trades ++
            [Trade.mk i Side.buy price (st.cash / (price * (1 + c + s)))])) ∧
    (0 < st.position →
      stepBar c s i price Signal.sell st =
        PState.mk
          (st.cash + st.position * price * (1 - c - s))
          0
          (st.trades ++ [Trade.mk i Side.sell price st.position])) ∧
    (∀ g : Signal, ¬(g = Signal.buy ∧ st.position = 0) →
      ¬(g = Signal.sell ∧ 0 < st.position) →
      stepBar c s i price g st = st) := by
  refine ⟨?_, ?_, ?_⟩
  · intro h
    simp [stepBar, h]
  · intro h
    have hne : ¬ st.position = 0 := ne_of_gt h
    simp [stepBar, hne, h]
  · intro g h1 h2
    simp only [stepBar, if_neg h1, if_neg h2]

/-- Concrete instantiation of `C1_state_machine`: a buy from flat at
price 2 with 100 cash, a sell while long 50 shares at price 4, and a
no-op Sell while flat (zero costs, so values stay integral). -/
theorem C1_state_machine_witness :
    stepBar 0 0 1 2 Signal.buy (PState.mk 100 0 []) =
      PState.mk 0 50 [Trade.mk 1 Side.buy 2 50] ∧
    stepBar 0 0 2 4 Signal.sell (PState.mk 0 50 []) =
      PState.mk 200 0 [Trade.mk 2 Side.sell 4 50] ∧
    stepBar 0 0 3 4 Signal.sell (PState.mk 7 0 []) = PState.mk 7 0 [] := by
  refine ⟨?_, ?_, ?_⟩
  · have h := (C1_state_machine 0 0 1 2 (PState.mk 100 0 [])).1 (by norm_num)
    rw [h]
    norm_num
  · have h := (C1_state_machine 0 0 2 4 (PState.mk 0 50 [])).2.1 (by norm_num)
    rw [h]
    norm_num
  · exact (C1_state_machine 0 0 3 4 (PState.mk 7 0 [])).2.2 Signal.sell
      (by simp) (by norm_num)

/-- A Hold signal never changes the state. -/
lemma stepBar_hold (c s : ℚ) (i : Nat) (p : ℚ) (st : PState) :
    stepBar c s i p Signal.hold st = st := by
  simp [stepBar]

/-- A Buy signal while flat executes the all-in purchase. -/
lemma stepBar_buy (c s : ℚ) (i : Nat) (p : ℚ) (st : PState)
    (h : st.position = 0) :
    stepBar c s i p Signal.buy st =
      PState.mk
        (st.cash - st.cash / (p * (1 + c + s)) * p * (1 + c + s))
        (st.cash / (p * (1 + c + s)))
        (st.trades ++ [Trade.mk i Side.buy p (st.cash / (p * (1 + c + s)))]) := by
  simp [stepBar, h]

/-- A Sell signal while long liquidates the whole position. -/
lemma stepBar_sell (c s : ℚ) (i : Nat) (p : ℚ) (st : PState)
    (h : 0 < st.position) :
    stepBar c s i p Signal.sell st =
      PState.mk
        (st.cash + st.position * p * (1 - c - s))
        0
        (st.trades ++ [Trade.mk i Side.sell p st.position]) := by
  have hne : ¬ st.position = 0 := ne_of_gt h
  simp [stepBar, hne, h]

/-- `simEnd` over concatenated inputs runs the first block, then the
second from the resulting state. -/
lemma simEnd_append (c s : ℚ) (ps1 : List ℚ) (gs1 : List Signal)
    (ps2 : List ℚ) (gs2 : List Signal) (i : Nat) (st : PState)
    (h : ps1.length = gs1.length) :
    simEnd c s (ps1 ++ ps2) (gs1 ++ gs2) i st =
      simEnd c s ps2 gs2 (i + ps1.length) (simEnd c s ps1 gs1 i st) := by
  induction ps1 generalizing gs1 i st with
  | nil =>
      cases gs1 with
      | nil => simp [simEnd]
      | cons g gs => simp at h
  | cons p ps ih =>
      cases gs1 with
      | nil => simp at h
      | cons g gs =>
          simp only [List.length_cons, Nat.succ.injEq] at h
          have hstep : simEnd c s ((p :: ps) ++ ps2) ((g :: gs) ++ gs2) i st =
              simEnd c s (ps ++ ps2) (gs ++ gs2) (i + 1)
                (stepBar c s i p g st) := rfl
          have hstep2 : simEnd c s (p :: ps) (g :: gs) i st =
              simEnd c s ps gs (i + 1) (stepBar c s i p g st) := rfl
          have hidx : i + (p :: ps).length = i + 1 + ps.length := by
            simp only [List.length_cons]
            omega
          rw [hstep, ih gs (i + 1) (stepBar c s i p g st) h, hstep2, hidx]

/-- Running the loop on Hold signals only leaves the state unchanged. -/
lemma simEnd_hold (c s : ℚ) (ps : List ℚ) (n i : Nat) (st : PState) :
    simEnd c s ps (List.replicate n Signal.hold) i st = st := by
  induction ps generalizing n i st with
  | nil => cases n <;> simp [simEnd]
  | cons p ps ih =>
      cases n with
      | zero => simp [simEnd]
      | succ m =>
          simp only [List.replicate_succ, simEnd, stepBar_hold]
          exact ih m (i + 1) st

/-- The trajectory tail has one state per bar actually processed. -/
lemma runAux_length (c s : ℚ) (ps : List ℚ) (gs : List Signal) (i : Nat)
    (st : PState) :
    (runAux c s ps gs i st).length = min ps.length gs.length := by
  induction ps generalizing gs i st with
  | nil => cases gs <;> simp [runAux]
  | cons p ps ih =>
      cases gs with
      | nil => simp [runAux]
      | cons g gs =>
          simp only [runAux, List.length_cons, ih]
          omega

/-- The last entry of the `portfolio_value` column is the equity of the
final loop state marked at the final close. -/
lemma zipRun_getLastD (c s : ℚ) (ps : List ℚ) (gs : List Signal)
    (i : Nat) (st : PState) (p0 : ℚ) (h : ps.length = gs.length) :
    (List.zipWith (fun st p => st.cash + st.position * p)
        (st :: runAux c s ps gs i st) (p0 :: ps)).getLastD 0 =
      (simEnd c s ps gs i st).cash +
        (simEnd c s ps gs i st).position * (p0 :: ps).getLastD 0 := by
  induction ps generalizing gs i st p0 with
  | nil =>
      cases gs with
      | nil => simp [runAux, simEnd]
      | cons g gs => simp at h
  | cons p ps ih =>
      cases gs with
      | nil => simp at h
      | cons g gs =>
          simp only [List.length_cons, Nat.succ.injEq] at h
          have h2 := ih gs (i + 1) (stepBar c s i p g st) p h
          simp only [List.zipWith_cons_cons, List.getLastD_cons] at h2
          simp only [runAux, simEnd, List.zipWith_cons_cons, List.getLastD_cons]
          exact h2

/-- `finalValue` in terms of the final loop state. -/
lemma finalValue_eq (capital c s : ℚ) (closes : List ℚ) (sigs : List Signal)
    (hne : closes ≠ []) (hlen : closes.length = sigs.length) :
    finalValue capital c s closes sigs =
      (simEnd c s (closes.drop 1) (sigs.drop 1) 1 (PState.mk capital 0 [])).cash +
        (simEnd c s (closes.drop 1) (sigs.drop 1) 1
            (PState.mk capital 0 [])).position * closes.getLastD 0 := by
  cases closes with
  | nil => exact absurd rfl hne
  | cons p0 ps =>
      cases sigs with
      | nil => simp at hlen
      | cons g0 gs =>
          simp only [List.length_cons, Nat.succ.injEq] at hlen
          simp only [finalValue, equityCurve, backtest, List.drop_succ_cons,
            List.drop_zero]
          exact zipRun_getLastD c s ps gs 1 (PState.mk capital 0 []) p0 hlen

/-- C4 as stated is false: the bar loop starts at index 1, so a Buy
signal at bar 0 is dropped.  With closes `[100, 200]`, a Buy at bar 0
and a Sell at bar 1 (zero costs), the buy never executes and
`total_return` is 0, not `(200 - 100) / 100 = 1`. -/
theorem C4_round_trip_cex :
    totalReturn 1000 0 0 [100, 200] [Signal.buy, Signal.sell] ≠
      ((200 : ℚ) - 100) / 100 := by
  have hne : Signal.sell ≠ Signal.buy := fun h => Signal.noConfusion h
  norm_num [totalReturn, finalValue, equityCurve, backtest, runAux, stepBar,
    hne]

/-- C4 amended: the round-trip identity holds once the Buy bar is in the
simulated range `1..N-1` (`k = l1.length ≥ 1`; the counterexample shows
`k = 0` fails).  For any price series shaped `l1 ++ c1 :: l2 ++ c2 :: l3`
with a Buy exactly at bar `k = l1.length`, a Sell exactly at bar
`k + l2.length + 1`, Hold elsewhere, and commission = slippage = 0,
`total_return` is exactly `(c2 - c1) / c1`. -/
theorem C4_round_trip (capital c1 c2 : ℚ) (l1 l2 l3 : List ℚ)
    (hcap : 0 < capital) (hc1 : 0 < c1) (hk : 1 ≤ l1.length) :
    totalReturn capital 0 0 (l1 ++ c1 :: (l2 ++ c2 :: l3))
      (List.replicate l1.length Signal.hold ++ Signal.buy ::
        (List.replicate l2.length Signal.hold ++ Signal.sell ::
          List.replicate l3.length Signal.hold)) = (c2 - c1) / c1 := by
  cases l1 with
  | nil => simp at hk
  | cons q l1 =>
      have hq : (q :: l1 ++ c1 :: (l2 ++ c2 :: l3)) ≠ [] := by simp
      have hlen : (q :: l1 ++ c1 :: (l2 ++ c2 :: l3)).length =
          (List.replicate (q :: l1).length Signal.hold ++ Signal.buy ::
            (List.replicate l2.length Signal.hold ++ Signal.sell ::
              List.replicate l3.length Signal.hold)).length := by
        simp
        omega
      rw [totalReturn, finalValue_eq capital 0 0 _ _ hq hlen]
      have hc1ne : c1 ≠ 0 := ne_of_gt hc1
      have hcapne : capital ≠ 0 := ne_of_gt hcap
      have hdropc : (q :: l1 ++ c1 :: (l2 ++ c2 :: l3)).drop 1 =
          l1 ++ c1 :: (l2 ++ c2 :: l3) := by simp
      have hdrops : (List.replicate (q :: l1).length Signal.hold ++ Signal.buy ::
            (List.replicate l2.length Signal.hold ++ Signal.sell ::
              List.replicate l3.length Signal.hold)).drop 1 =
          List.replicate l1.length Signal.hold ++ Signal.buy ::
            (List.replicate l2.length Signal.hold ++ Signal.sell ::
              List.replicate l3.length Signal.hold) := by
        simp [List.replicate_succ]
      rw [hdropc, hdrops]
      rw [simEnd_append 0 0 l1 (List.replicate l1.length Signal.hold) _ _ 1
          (PState.mk capital 0 []) (by simp)]
      rw [simEnd_hold]
      simp only [simEnd]
      have hbuy : stepBar 0 0 (1 + l1.length) c1 Signal.buy
            (PState.mk capital 0 []) =
          PState.mk 0 (capital / c1)
            [Trade.mk (1 + l1.length) Side.buy c1 (capital / c1)] := by
        rw [stepBar_buy 0 0 (1 + l1.length) c1 (PState.mk capital 0 []) rfl]
        have h1 : c1 * (1 + 0 + 0) = c1 := by ring
        rw [h1]
        have h2 : capital - capital / c1 * c1 * (1 + 0 + 0) = 0 := by
          have h3 : capital / c1 * c1 * (1 + 0 + 0) = capital / c1 * c1 := by
            ring
          rw [h3, div_mul_cancel₀ capital hc1ne, sub_self]
        rw [h2]
        simp
      rw [hbuy]
      rw [simEnd_append 0 0 l2 (List.replicate l2.length Signal.hold) _ _ _ _
          (by simp)]
      rw [simEnd_hold]
      simp only [simEnd]
      have hpos : (0 : ℚ) < capital / c1 := div_pos hcap hc1
      have hsell : stepBar 0 0 (1 + l1.length + 1 + l2.length) c2 Signal.sell
            (PState.mk 0 (capital / c1)
              [Trade.mk (1 + l1.length) Side.buy c1 (capital / c1)]) =
          PState.mk (capital / c1 * c2) 0
            (Trade.mk (1 + l1.length) Side.buy c1 (capital / c1) ::
              [Trade.mk (1 + l1.length + 1 + l2.length) Side.sell c2
                (capital / c1)]) := by
        rw [stepBar_sell 0 0 (1 + l1.length + 1 + l2.length) c2
            (PState.mk 0 (capital / c1)
              [Trade.mk (1 + l1.length) Side.buy c1 (capital / c1)]) hpos]
        have h4 : (0 : ℚ) + capital / c1 * c2 * (1 - 0 - 0) =
            capital / c1 * c2 := by ring
        rw [h4]
        simp
      rw [hsell]
      rw [simEnd_hold]
      field_simp
      ring

/-- Concrete instantiation of `C4_round_trip`: closes `[50, 100, 200]`,
Buy at bar 1, Sell at bar 2, zero costs: total return is exactly 1. -/
theorem C4_round_trip_witness :
    totalReturn 1000 0 0 [50, 100, 200] [Signal.hold, Signal.buy, Signal.sell] =
      1 := by
  have h := C4_round_trip 1000 100 200 [50] [] [] (by norm_num) (by norm_num)
    (by simp)
  norm_num [List.replicate] at h
  exact h

/-- C9 as stated is false: the code performs no input validation.  On the
invalid price series `[-5, -6]` (non-positive prices) the simulator runs
the bar loop and even executes a Buy, recording a trade — it does not
fail before any bar of simulation executes. -/
theorem C9_no_validation_cex :
    ((backtest 100000 (1 / 1000) (1 / 2000) [-5, -6]
        [Signal.hold, Signal.buy]).getLastD dummySt).trades.length = 1 := by
  simp [backtest, runAux, stepBar]

/-- C9 amended: `TradingStrategy.backtest` has no validation gate at all:
for every price series (valid or not) with an aligned signal sequence it
simulates all bars, producing a full trajectory (one state per bar).
An empty series only fails later, at `iloc[-1]` during metric extraction,
and non-monotonic timestamps or non-positive prices are never detected
(the counterexample records a trade at a negative price). -/
theorem C9_no_validation (capital c s : ℚ) (closes : List ℚ)
    (sigs : List Signal) (hlen : closes.length = sigs.length)
    (hne : 1 ≤ closes.length) :
    (backtest capital c s closes sigs).length = closes.length := by
  simp only [backtest, List.length_cons, runAux_length, List.length_drop,
    ← hlen, min_self]
  omega

/-- Concrete instantiation of `C9_no_validation`: a one-bar series yields
a one-state trajectory, with no failure. -/
theorem C9_no_validation_witness :
    (backtest 1 0 0 [5] [Signal.hold]).length = 1 :=
  C9_no_validation 1 0 0 [5] [Signal.hold] rfl (by norm_num)

/-- C10: the bar loop starts at index 1 (`range(1, len(df))`), so the
signal at index 0 is ignored entirely — the trajectory at bar 0 is the
initial state (equity `initial_capital`, empty trade log), replacing the
index-0 signal changes nothing, and every recorded trade happens at a
bar index `≥ 1`. -/
theorem C10_bar_zero (capital c s : ℚ) (closes : List ℚ) (g g' : Signal)
    (rest : List Signal) (hne : closes ≠ []) :
    (equityCurve capital c s closes (g :: rest)).getD 0 0 = capital ∧
    (trajAt capital c s closes (g :: rest) 0).trades = [] ∧
    backtest capital c s closes (g :: rest) =
      backtest capital c s closes (g' :: rest) ∧
    (∀ st ∈ backtest capital c s closes (g :: rest),
      ∀ t ∈ st.trades, 1 ≤ t.date) := by
  refine ⟨?_, ?_, ?_, ?_⟩
  · cases closes with
    | nil => exact absurd rfl hne
    | cons p ps => simp [equityCurve, backtest]
  · simp [trajAt, backtest]
  · rfl
  · intro st hst t ht
    have key : ∀ (ps : List ℚ) (gs : List Signal) (i : Nat) (st0 : PState),
        1 ≤ i → (∀ t ∈ st0.trades, 1 ≤ t.date) →
        ∀ st' ∈ runAux c s ps gs i st0, ∀ t ∈ st'.trades, 1 ≤ t.date := by
      intro ps
      induction ps with
      | nil => intro gs i st0 hi h0 st' hst'; cases gs <;> simp [runAux] at hst'
      | cons p ps ih =>
          intro gs i st0 hi h0 st' hst'
          cases gs with
          | nil => simp [runAux] at hst'
          | cons g0 gs =>
              have hstep : ∀ t ∈ (stepBar c s i p g0 st0).trades,
                  1 ≤ t.date := by
                intro t' ht'
                simp only [stepBar] at ht'
                split_ifs at ht' with h1 h2
                · rcases List.mem_append.1 ht' with h | h
                  · exact h0 t' h
                  · simp at h
                    subst h
                    exact hi
                · rcases List.mem_append.1 ht' with h | h
                  · exact h0 t' h
                  · simp at h
                    subst h
                    exact hi
                · exact h0 t' ht'
              simp only [runAux, List.mem_cons] at hst'
              rcases hst' with h | h
              · subst h
                exact hstep
              · exact ih gs (i + 1) (stepBar c s i p g0 st0) (by omega) hstep
                  st' h
    simp only [backtest, List.mem_cons] at hst
    rcases hst with h | h
    · subst h
      simp at ht
    · exact key (closes.drop 1) ((g :: rest).drop 1) 1 (PState.mk capital 0 [])
        le_rfl (by simp) st h t ht

/-- Concrete instantiation of `C10_bar_zero`: on a one-bar series a Buy
signal at index 0 is dropped — equity stays at the initial capital and
replacing it by Sell gives the identical trajectory. -/
theorem C10_bar_zero_witness :
    (equityCurve 5 0 0 [7] [Signal.buy]).getD 0 0 = 5 ∧
    backtest 5 0 0 [7] [Signal.buy] = backtest 5 0 0 [7] [Signal.sell] := by
  have h := C10_bar_zero 5 0 0 [7] Signal.buy Signal.sell [] (by simp)
  exact ⟨h.1, h.2.2.1⟩

lemma alternates_nil : alternates [] := by
  intro i hi
  simp at hi

lemma alternates_snoc_buy (l : List Trade) (t : Trade) (hl : alternates l)
    (hev : l.length % 2 = 0) (ht : t.side = Side.buy) :
    alternates (l ++ [t]) := by
  intro i hi
  simp only [List.length_append, List.length_singleton] at hi
  rcases lt_or_ge i l.length with h | h
  · rw [List.getD_append _ _ _ _ h]
    exact hl i h
  · have hieq : i = l.length := by omega
    subst hieq
    rw [List.getD_append_right _ _ _ _ h]
    simp [hev, ht]

lemma alternates_snoc_sell (l : List Trade) (t : Trade) (hl : alternates l)
    (hodd : l.length % 2 = 1) (ht : t.side = Side.sell) :
    alternates (l ++ [t]) := by
  intro i hi
  simp only [List.length_append, List.length_singleton] at hi
  rcases lt_or_ge i l.length with h | h
  · rw [List.getD_append _ _ _ _ h]
    exact hl i h
  · have hieq : i = l.length := by omega
    subst hieq
    rw [List.getD_append_right _ _ _ _ h]
    simp [hodd, ht]

/-- One loop iteration preserves the internal invariant, provided the
bar's close is positive, costs are nonnegative and sum below 1. -/
lemma Inv_step (c s : ℚ) (hc : 0 ≤ c) (hs : 0 ≤ s) (hcs : c + s < 1)
    (i : Nat) (p : ℚ) (hp : 0 < p) (g : Signal) (st : PState)
    (h : Inv st) : Inv (stepBar c s i p g st) := by
  obtain ⟨halt, hiff, hcase, hflat, hlong⟩ := h
  have hX : 0 < p * (1 + c + s) := by
    apply mul_pos hp
    linarith
  by_cases hbuyc : g = Signal.buy ∧ st.position = 0
  · rw [hbuyc.1, stepBar_buy c s i p st hbuyc.2]
    have hcash : 0 < st.cash := hflat hbuyc.2
    have hpos : 0 < st.cash / (p * (1 + c + s)) := div_pos hcash hX
    have hrem : st.cash - st.cash / (p * (1 + c + s)) * p * (1 + c + s) = 0 := by
      rw [mul_assoc, div_mul_cancel₀ st.cash (ne_of_gt hX), sub_self]
    have hev : st.trades.length % 2 = 0 := by
      have h1 : ¬ 0 < st.position := by
        rw [hbuyc.2]
        exact lt_irrefl 0
      have h2 : ¬ st.trades.length % 2 = 1 := fun hh => h1 (hiff.mpr hh)
      omega
    refine ⟨alternates_snoc_buy st.trades _ halt hev rfl, ?_, ?_, ?_, ?_⟩
    · simp only [List.length_append, List.length_singleton]
      constructor
      · intro _
        omega
      · intro _
        exact hpos
    · right
      exact hpos
    · intro h0
      exact absurd h0 (ne_of_gt hpos)
    · intro _
      exact hrem
  · by_cases hsellc : g = Signal.sell ∧ 0 < st.position
    · rw [hsellc.1, stepBar_sell c s i p st hsellc.2]
      have hcash0 : st.cash = 0 := hlong hsellc.2
      have hproceeds : 0 < st.cash + st.position * p * (1 - c - s) := by
        rw [hcash0, zero_add]
        apply mul_pos (mul_pos hsellc.2 hp)
        linarith
      have hodd : st.trades.length % 2 = 1 := hiff.mp hsellc.2
      refine ⟨alternates_snoc_sell st.trades _ halt hodd rfl, ?_, ?_, ?_, ?_⟩
      · simp only [List.length_append, List.length_singleton]
        constructor
        · intro hh
          exact absurd hh (lt_irrefl 0)
        · intro hh
          omega
      · left
        rfl
      · intro _
        exact hproceeds
      · intro hh
        exact absurd hh (lt_irrefl 0)
    · simp only [stepBar, if_neg hbuyc, if_neg hsellc]
      exact ⟨halt, hiff, hcase, hflat, hlong⟩

lemma getD_drop_one {α : Type} (l : List α) (k : Nat) (d : α) :
    (l.drop 1).getD k d = l.getD (k + 1) d := by
  cases l <;> simp [List.getD]

lemma runAux_getD_zero (c s : ℚ) (ps : List ℚ) (gs : List Signal) (i : Nat)
    (st : PState) (h : 0 < (runAux c s ps gs i st).length) :
    (runAux c s ps gs i st).getD 0 dummySt =
      stepBar c s i (ps.getD 0 0) (gs.getD 0 Signal.hold) st := by
  cases ps with
  | nil => simp [runAux] at h
  | cons p ps =>
      cases gs with
      | nil => simp [runAux] at h
      | cons g gs => simp [runAux]

lemma runAux_getD_succ (c s : ℚ) :
    ∀ (ps : List ℚ) (gs : List Signal) (i : Nat) (st : PState) (k : Nat),
      k + 1 < (runAux c s ps gs i st).length →
      (runAux c s ps gs i st).getD (k + 1) dummySt =
        stepBar c s (i + k + 1) (ps.getD (k + 1) 0)
          (gs.getD (k + 1) Signal.hold)
          ((runAux c s ps gs i st).getD k dummySt) := by
  intro ps
  induction ps with
  | nil =>
      intro gs i st k hk
      simp [runAux] at hk
  | cons p ps ih =>
      intro gs i st k hk
      cases gs with
      | nil => simp [runAux] at hk
      | cons g gs =>
          simp only [runAux, List.length_cons] at hk
          have hk' : k < (runAux c s ps gs (i + 1) (stepBar c s i p g st)).length := by
            omega
          cases k with
          | zero =>
              simp only [runAux, List.getD_cons_succ, List.getD_cons_zero]
              exact runAux_getD_zero c s ps gs (i + 1) (stepBar c s i p g st) hk'
          | succ m =>
              simp only [runAux, List.getD_cons_succ]
              have hidx : i + 1 + m + 1 = i + (m + 1) + 1 := by omega
              rw [ih gs (i + 1) (stepBar c s i p g st) m hk', hidx]

lemma backtest_len_le (capital c s : ℚ) (closes : List ℚ)
    (sigs : List Signal) (hlen : closes.length = sigs.length) (k : Nat)
    (hk : k + 1 < (backtest capital c s closes sigs).length) :
    k + 1 < closes.length := by
  simp only [backtest, List.length_cons, runAux_length, List.length_drop,
    ← hlen, min_self] at hk
  omega

/-- The trajectory recurrence: state at bar `k + 1` is one loop step from
the state at bar `k`. -/
lemma backtest_getD_succ (capital c s : ℚ) (closes : List ℚ)
    (sigs : List Signal) (k : Nat)
    (hk : k + 1 < (backtest capital c s closes sigs).length) :
    trajAt capital c s closes sigs (k + 1) =
      stepBar c s (k + 1) (closes.getD (k + 1) 0)
        (sigs.getD (k + 1) Signal.hold)
        (trajAt capital c s closes sigs k) := by
  simp only [backtest, List.length_cons] at hk
  have hk' : k < (runAux c s (closes.drop 1) (sigs.drop 1) 1
      (PState.mk capital 0 [])).length := by omega
  cases k with
  | zero =>
      simp only [trajAt, backtest, List.getD_cons_succ, List.getD_cons_zero]
      rw [runAux_getD_zero c s _ _ 1 _ hk', getD_drop_one, getD_drop_one]
  | succ m =>
      simp only [trajAt, backtest, List.getD_cons_succ]
      rw [runAux_getD_succ c s _ _ 1 _ m hk', getD_drop_one, getD_drop_one]
      have hidx : 1 + m + 1 = m + 1 + 1 := by omega
      rw [hidx]

lemma trajAt_zero (capital c s : ℚ) (closes : List ℚ) (sigs : List Signal) :
    trajAt capital c s closes sigs 0 = PState.mk capital 0 [] := rfl

/-- Master induction for C2: every trajectory state satisfies the
internal invariant, and every long state is anchored at its last Buy. -/
lemma C2_master (capital c s : ℚ) (closes : List ℚ) (sigs : List Signal)
    (hcap : 0 < capital) (hp : ∀ p ∈ closes, 0 < p) (hc : 0 ≤ c)
    (hs : 0 ≤ s) (hcs : c + s < 1) (hlen : closes.length = sigs.length) :
    ∀ i, i < (backtest capital c s closes sigs).length →
      Inv (trajAt capital c s closes sigs i) ∧
      (0 < (trajAt capital c s closes sigs i).position →
        buyAnchored capital c s closes sigs i) := by
  intro i
  induction i with
  | zero =>
      intro _
      rw [trajAt_zero]
      refine ⟨⟨alternates_nil, ?_, ?_, ?_, ?_⟩, ?_⟩
      · simp
      · left
        rfl
      · intro _
        exact hcap
      · intro hh
        exact absurd hh (lt_irrefl 0)
      · intro hh
        exact absurd hh (lt_irrefl 0)
  | succ k ihk =>
      intro hk1
      have hk : k < (backtest capital c s closes sigs).length := by omega
      obtain ⟨hInv, hanch⟩ := ihk hk
      have hR := backtest_getD_succ capital c s closes sigs k hk1
      have hkc : k + 1 < closes.length :=
        backtest_len_le capital c s closes sigs hlen k hk1
      have hpc : 0 < closes.getD (k + 1) 0 := by
        rw [List.getD_eq_getElem closes 0 hkc]
        exact hp _ (List.getElem_mem hkc)
      constructor
      · rw [hR]
        exact Inv_step c s hc hs hcs (k + 1) _ hpc _ _ hInv
      · intro hpos
        by_cases hbuyc : sigs.getD (k + 1) Signal.hold = Signal.buy ∧
            (trajAt capital c s closes sigs k).position = 0
        · refine ⟨k + 1,
            Trade.mk (k + 1) Side.buy (closes.getD (k + 1) 0)
              ((trajAt capital c s closes sigs k).cash /
                (closes.getD (k + 1) 0 * (1 + c + s))),
            by omega, le_rfl, ?_, rfl, ?_, ?_, rfl, rfl, ?_⟩
          · simp only [Nat.add_sub_cancel]
            rw [hR, hbuyc.1, stepBar_buy c s (k + 1) _ _ hbuyc.2]
          · simp only [Nat.add_sub_cancel]
          · simp only [Nat.add_sub_cancel]
            rw [hR, hbuyc.1, stepBar_buy c s (k + 1) _ _ hbuyc.2]
          · rw [hR, hbuyc.1, stepBar_buy c s (k + 1) _ _ hbuyc.2]
            exact List.getLast?_concat _
        · by_cases hsellc : sigs.getD (k + 1) Signal.hold = Signal.sell ∧
              0 < (trajAt capital c s closes sigs k).position
          · exfalso
            rw [hR, hsellc.1, stepBar_sell c s (k + 1) _ _ hsellc.2] at hpos
            exact absurd hpos (lt_irrefl 0)
          · have hsame : trajAt capital c s closes sigs (k + 1) =
                trajAt capital c s closes sigs k := by
              rw [hR]
              simp only [stepBar, if_neg hbuyc, if_neg hsellc]
            rw [hsame] at hpos
            obtain ⟨j, t, hj0, hji, h1, h2, h3, h4, h5, h6, h7⟩ := hanch hpos
            refine ⟨j, t, hj0, by omega, h1, h2, h3, h4, ?_, ?_, ?_⟩
            · rw [hsame]
              exact h5
            · rw [hsame]
              exact h6
            · rw [hsame]
              exact h7

/-- C2: for every price series (positive closes) and aligned signal
sequence, with positive initial capital and nonnegative costs summing
below 1, every trajectory state has a trade log that strictly alternates
Buy, Sell, Buy, ... starting with Buy; and whenever shares are held, cash
equals exactly the remainder computed at the most recent Buy, unchanged
since that bar, and the last log entry is that Buy with no subsequent
Sell. -/
theorem C2_trade_log_invariants (capital c s : ℚ) (closes : List ℚ)
    (sigs : List Signal) (hcap : 0 < capital) (hp : ∀ p ∈ closes, 0 < p)
    (hc : 0 ≤ c) (hs : 0 ≤ s) (hcs : c + s < 1)
    (hlen : closes.length = sigs.length) :
    ∀ i, i < (backtest capital c s closes sigs).length →
      alternates (trajAt capital c s closes sigs i).trades ∧
      (0 < (trajAt capital c s closes sigs i).position →
        buyAnchored capital c s closes sigs i) := by
  intro i hi
  obtain ⟨hInv, hanch⟩ :=
    C2_master capital c s closes sigs hcap hp hc hs hcs hlen i hi
  exact ⟨hInv.1, hanch⟩

/-- Concrete instantiation of `C2_trade_log_invariants` at bar 1 of a
two-bar run whose second signal is Buy. -/
theorem C2_trade_log_invariants_witness :
    alternates (trajAt 100 0 0 [2, 2] [Signal.hold, Signal.buy] 1).trades ∧
    (0 < (trajAt 100 0 0 [2, 2] [Signal.hold, Signal.buy] 1).position →
      buyAnchored 100 0 0 [2, 2] [Signal.hold, Signal.buy] 1) := by
  have h := C2_trade_log_invariants 100 0 0 [2, 2] [Signal.hold, Signal.buy]
    (by norm_num)
    (by
      intro p hp
      simp at hp
      subst hp
      norm_num)
    le_rfl le_rfl (by norm_num) rfl 1
    (by simp [backtest, runAux_length])
  exact h

lemma expandingMaxAux_length (peak : ℚ) (vs : List ℚ) :
    (expandingMaxAux peak vs).length = vs.length := by
  induction vs generalizing peak with
  | nil => rfl
  | cons v vs ih => simp [expandingMaxAux, ih]

lemma expandingMax_length (l : List ℚ) : (expandingMax l).length = l.length := by
  cases l with
  | nil => rfl
  | cons v vs => simp [expandingMax, expandingMaxAux_length]

lemma drawdowns_length (l : List ℚ) : (drawdowns l).length = l.length := by
  simp [drawdowns, expandingMax_length]

lemma expandingMaxAux_getD (vs : List ℚ) :
    ∀ (peak : ℚ) (i : Nat), i < vs.length →
      (expandingMaxAux peak vs).getD i 0 = (vs.take (i + 1)).foldl max peak := by
  induction vs with
  | nil =>
      intro peak i hi
      simp at hi
  | cons v vs ih =>
      intro peak i hi
      cases i with
      | zero => simp [expandingMaxAux]
      | succ m =>
          simp only [expandingMaxAux, List.getD_cons_succ, List.take_succ_cons,
            List.foldl_cons]
          exact ih (max peak v) m (by simpa using hi)

lemma expandingMax_getD (l : List ℚ) (i : Nat) (hi : i < l.length) :
    (expandingMax l).getD i 0 = peakSpec l i := by
  cases l with
  | nil => simp at hi
  | cons v vs =>
      cases i with
      | zero => simp [expandingMax, peakSpec, listMax]
      | succ m =>
          simp only [expandingMax, List.getD_cons_succ, peakSpec,
            List.take_succ_cons, listMax]
          exact expandingMaxAux_getD vs v m (by simpa using hi)

lemma drawdowns_getD (l : List ℚ) (i : Nat) (hi : i < l.length) :
    (drawdowns l).getD i 0 = (l.getD i 0 - peakSpec l i) / peakSpec l i := by
  have hz : i < (List.zipWith (fun v pk => (v - pk) / pk) l
      (expandingMax l)).length := by
    simp [expandingMax_length]
    omega
  rw [drawdowns, List.getD_eq_getElem _ _ hz, List.getElem_zipWith,
    ← List.getD_eq_getElem l 0 hi,
    ← List.getD_eq_getElem (expandingMax l) 0 (by rw [expandingMax_length]; exact hi),
    expandingMax_getD l i hi]

lemma le_foldl_max (vs : List ℚ) : ∀ b : ℚ, b ≤ vs.foldl max b := by
  induction vs with
  | nil =>
      intro b
      simp
  | cons v vs ih =>
      intro b
      simp only [List.foldl_cons]
      exact le_trans (le_max_left b v) (ih (max b v))

lemma getD_le_foldl_max (vs : List ℚ) :
    ∀ (b : ℚ) (i : Nat), i < vs.length →
      vs.getD i 0 ≤ (vs.take (i + 1)).foldl max b := by
  induction vs with
  | nil =>
      intro b i hi
      simp at hi
  | cons v vs ih =>
      intro b i hi
      cases i with
      | zero =>
          simp only [List.getD_cons_zero, List.take_succ_cons, List.take_zero,
            List.foldl_cons, List.foldl_nil]
          exact le_max_right b v
      | succ m =>
          simp only [List.getD_cons_succ, List.take_succ_cons, List.foldl_cons]
          exact ih (max b v) m (by simpa using hi)

lemma getD_le_peakSpec (l : List ℚ) (i : Nat) (hi : i < l.length) :
    l.getD i 0 ≤ peakSpec l i := by
  cases l with
  | nil => simp at hi
  | cons v vs =>
      cases i with
      | zero => simp [peakSpec, listMax]
      | succ m =>
          simp only [List.getD_cons_succ, peakSpec, List.take_succ_cons, listMax]
          exact getD_le_foldl_max vs v m (by simpa using hi)

lemma peakSpec_pos (l : List ℚ) (hpos : ∀ v ∈ l, 0 < v) (i : Nat)
    (hi : i < l.length) : 0 < peakSpec l i := by
  cases l with
  | nil => simp at hi
  | cons v vs =>
      have hv : 0 < v := hpos v (List.mem_cons_self v vs)
      cases i with
      | zero => simpa [peakSpec, listMax] using hv
      | succ m =>
          simp only [peakSpec, List.take_succ_cons, listMax]
          exact lt_of_lt_of_le hv (le_foldl_max _ v)

lemma foldl_max_take (vs : List ℚ) :
    ∀ (b : ℚ) (i : Nat), i < vs.length →
      (vs.take (i + 1)).foldl max b =
        max ((vs.take i).foldl max b) (vs.getD i 0) := by
  induction vs with
  | nil =>
      intro b i hi
      simp at hi
  | cons v vs ih =>
      intro b i hi
      cases i with
      | zero => simp
      | succ m =>
          simp only [List.take_succ_cons, List.foldl_cons, List.getD_cons_succ]
          exact ih (max b v) m (by simpa using hi)

lemma peakSpec_succ (l : List ℚ) (i : Nat) (hi : i + 1 < l.length) :
    peakSpec l (i + 1) = max (peakSpec l i) (l.getD (i + 1) 0) := by
  cases l with
  | nil => simp at hi
  | cons v vs =>
      simp only [peakSpec, List.take_succ_cons, listMax, List.getD_cons_succ]
      exact foldl_max_take vs v i (by simpa using hi)

lemma foldl_min_le (vs : List ℚ) :
    ∀ b : ℚ, vs.foldl min b ≤ b ∧ ∀ x ∈ vs, vs.foldl min b ≤ x := by
  induction vs with
  | nil =>
      intro b
      simp
  | cons v vs ih =>
      intro b
      obtain ⟨h1, h2⟩ := ih (min b v)
      refine ⟨le_trans h1 (min_le_left b v), ?_⟩
      intro x hx
      rcases List.mem_cons.1 hx with h | h
      · subst h
        exact le_trans h1 (min_le_right b x)
      · exact h2 x h

lemma foldl_min_mem (vs : List ℚ) :
    ∀ b : ℚ, vs.foldl min b = b ∨ vs.foldl min b ∈ vs := by
  induction vs with
  | nil =>
      intro b
      left
      rfl
  | cons v vs ih =>
      intro b
      rcases ih (min b v) with h | h
      · rcases min_choice b v with hc | hc
        · left
          simp only [List.foldl_cons]
          rw [h, hc]
        · right
          simp only [List.foldl_cons]
          rw [h, hc]
          exact List.mem_cons_self v vs
      · right
        exact List.mem_cons_of_mem v h

lemma listMin_mem (l : List ℚ) (h : l ≠ []) : listMin l ∈ l := by
  cases l with
  | nil => exact absurd rfl h
  | cons v vs =>
      rcases foldl_min_mem vs v with h1 | h1
      · rw [listMin, h1]
        exact List.mem_cons_self v vs
      · exact List.mem_cons_of_mem v h1

lemma listMin_le (l : List ℚ) (x : ℚ) (hx : x ∈ l) : listMin l ≤ x := by
  cases l with
  | nil => simp at hx
  | cons v vs =>
      obtain ⟨h1, h2⟩ := foldl_min_le vs v
      rcases List.mem_cons.1 hx with h | h
      · subst h
        exact h1
      · exact h2 x h

/-- C5: the max-drawdown metric is the minimum over all bars of
`(equity - running_peak) / running_peak`, where the running peak at a bar
is the maximum equity at or before it (inclusive); on every (nonempty,
positive) equity trajectory the result is ≤ 0, and it is 0 exactly when
the trajectory is non-decreasing throughout. -/
theorem C5_max_drawdown (l : List ℚ) (hne : l ≠ []) (hpos : ∀ v ∈ l, 0 < v) :
    (drawdowns l).length = l.length ∧
    (∀ i, i < l.length →
      (drawdowns l).getD i 0 = (l.getD i 0 - peakSpec l i) / peakSpec l i) ∧
    calculate_max_drawdown l ∈ drawdowns l ∧
    (∀ x ∈ drawdowns l, calculate_max_drawdown l ≤ x) ∧
    calculate_max_drawdown l ≤ 0 ∧
    (calculate_max_drawdown l = 0 ↔ nonDecr l) := by
  have hlen0 : 0 < l.length := List.length_pos.mpr hne
  have hddne : drawdowns l ≠ [] := by
    intro hh
    rw [← List.length_eq_zero, drawdowns_length] at hh
    omega
  have hmem : calculate_max_drawdown l ∈ drawdowns l :=
    listMin_mem (drawdowns l) hddne
  have hlb : ∀ x ∈ drawdowns l, calculate_max_drawdown l ≤ x :=
    fun x hx => listMin_le (drawdowns l) x hx
  have hdd_le : ∀ i, i < l.length → (drawdowns l).getD i 0 ≤ 0 := by
    intro i hi
    rw [drawdowns_getD l i hi]
    have hp : 0 < peakSpec l i := peakSpec_pos l hpos i hi
    have hv : l.getD i 0 ≤ peakSpec l i := getD_le_peakSpec l i hi
    rw [div_le_iff₀ hp, zero_mul]
    exact sub_nonpos.mpr hv
  have hdd0 : (drawdowns l).getD 0 0 = 0 := by
    rw [drawdowns_getD l 0 hlen0]
    have : peakSpec l 0 = l.getD 0 0 := by
      cases l with
      | nil => exact absurd rfl hne
      | cons v vs => simp [peakSpec, listMax]
    rw [this, sub_self, zero_div]
  have hdd0mem : (drawdowns l).getD 0 0 ∈ drawdowns l := by
    have h0 : 0 < (drawdowns l).length := by
      rw [drawdowns_length]
      exact hlen0
    rw [List.getD_eq_getElem _ _ h0]
    exact List.getElem_mem h0
  have hle0 : calculate_max_drawdown l ≤ 0 := by
    have := hlb _ hdd0mem
    rw [hdd0] at this
    exact this
  refine ⟨drawdowns_length l, fun i hi => drawdowns_getD l i hi, hmem, hlb,
    hle0, ?_⟩
  constructor
  · intro hzero
    intro i hi1
    have hi : i < l.length := by omega
    have hi1' : i + 1 < l.length := hi1
    have hddi : (drawdowns l).getD (i + 1) 0 = 0 := by
      have hmem' : (drawdowns l).getD (i + 1) 0 ∈ drawdowns l := by
        have hh : i + 1 < (drawdowns l).length := by
          rw [drawdowns_length]
          exact hi1'
        rw [List.getD_eq_getElem _ _ hh]
        exact List.getElem_mem hh
      have h1 := hlb _ hmem'
      rw [hzero] at h1
      have h2 := hdd_le (i + 1) hi1'
      linarith
    rw [drawdowns_getD l (i + 1) hi1'] at hddi
    have hp : 0 < peakSpec l (i + 1) := peakSpec_pos l hpos (i + 1) hi1'
    have hsub : l.getD (i + 1) 0 - peakSpec l (i + 1) = 0 := by
      rcases div_eq_zero_iff.mp hddi with h | h
      · exact h
      · exact absurd h (ne_of_gt hp)
    have hval : l.getD (i + 1) 0 = peakSpec l (i + 1) := by linarith
    have hstep : peakSpec l (i + 1) = max (peakSpec l i) (l.getD (i + 1) 0) :=
      peakSpec_succ l i hi1'
    have hvi : l.getD i 0 ≤ peakSpec l i := getD_le_peakSpec l i hi
    have hple : peakSpec l i ≤ l.getD (i + 1) 0 := by
      have h1 : peakSpec l i ≤ peakSpec l (i + 1) := by
        rw [hstep]
        exact le_max_left _ _
      rw [← hval] at h1
      exact h1
    linarith
  · intro hmono
    have hpeq : ∀ i, i < l.length → peakSpec l i = l.getD i 0 := by
      intro i
      induction i with
      | zero =>
          intro _
          cases l with
          | nil => exact absurd rfl hne
          | cons v vs => simp [peakSpec, listMax]
      | succ m ihm =>
          intro hm1
          have hm : m < l.length := by omega
          rw [peakSpec_succ l m hm1, ihm hm,
            max_eq_right (hmono m hm1)]
    have hddall : ∀ i, i < l.length → (drawdowns l).getD i 0 = 0 := by
      intro i hi
      rw [drawdowns_getD l i hi, hpeq i hi, sub_self, zero_div]
    obtain ⟨k, hk, hkeq⟩ := List.mem_iff_getElem.mp hmem
    have hkl : k < l.length := by
      rw [drawdowns_length] at hk
      exact hk
    rw [← hkeq, ← List.getD_eq_getElem _ 0 hk]
    exact hddall k hkl

/-- Concrete instantiation of `C5_max_drawdown`: trajectory
`[4, 2, 3]` has drawdowns `[0, -1/2, -1/4]`; its max drawdown is
negative (the trajectory decreases), and the bound `≤ 0` holds. -/
theorem C5_max_drawdown_witness :
    calculate_max_drawdown [4, 2, 3] ≤ 0 ∧
    calculate_max_drawdown [4, 2, 3] ∈ drawdowns [4, 2, 3] := by
  have h := C5_max_drawdown [4, 2, 3] (by simp)
    (by
      intro v hv
      simp at hv
      rcases hv with h | h | h <;> subst h <;> norm_num)
  exact ⟨h.2.2.2.2.1, h.2.2.1⟩

lemma winPairsSpec_cons2 (a b : Trade) (rest : List Trade) :
    winPairsSpec (a :: b :: rest) =
      (if a.price < b.price then 1 else 0) + winPairsSpec rest := by
  have hlen : (a :: b :: rest).length / 2 = rest.length / 2 + 1 := by
    simp only [List.length_cons]
    omega
  have hcongr :
      (List.filter
        (fun i => decide (((a :: b :: rest).getD (2 * i) dummyTr).price <
          ((a :: b :: rest).getD (2 * i + 1) dummyTr).price))
        (List.map Nat.succ (List.range (rest.length / 2)))) =
      List.map Nat.succ
        (List.filter
          (fun i => decide ((rest.getD (2 * i) dummyTr).price <
            (rest.getD (2 * i + 1) dummyTr).price))
          (List.range (rest.length / 2))) := by
    rw [List.filter_map]
    congr 1
  rw [winPairsSpec, hlen, List.range_succ_eq_map, List.filter_cons, hcongr]
  have hp0 : (a :: b :: rest).getD (2 * 0) dummyTr = a := rfl
  have hp1 : (a :: b :: rest).getD (2 * 0 + 1) dummyTr = b := rfl
  rw [hp0, hp1]
  by_cases hab : a.price < b.price
  · rw [if_pos (by simpa using hab), if_pos hab]
    simp only [List.length_cons, List.length_map]
    rw [winPairsSpec]
    omega
  · rw [if_neg (by simpa using hab), if_neg hab]
    simp only [List.length_map]
    rw [winPairsSpec]
    omega

lemma winCount_eq_spec (l : List Trade) : winCount l = winPairsSpec l := by
  have key : ∀ (n : Nat) (l : List Trade), l.length ≤ n →
      winCount l = winPairsSpec l := by
    intro n
    induction n with
    | zero =>
        intro l hl
        have : l = [] := by
          cases l with
          | nil => rfl
          | cons a l => simp at hl
        subst this
        rfl
    | succ m ih =>
        intro l hl
        match l with
        | [] => rfl
        | [a] =>
            have h1 : winPairsSpec [a] = 0 := by
              rw [winPairsSpec]
              norm_num
            rw [h1]
            rfl
        | a :: b :: rest =>
            have hr : rest.length ≤ m := by
              simp only [List.length_cons] at hl
              omega
            rw [winPairsSpec_cons2]
            show (if a.price < b.price then 1 else 0) + winCount rest = _
            rw [ih rest hr]
  exact key l.length l le_rfl

/-- C6: the win rate pairs the trade log as consecutive (Buy, Sell)
pairs in log order, a pair winning iff the sell price strictly exceeds
the buy price, divided by `floor(trade_count / 2)`; with fewer than 2
trades it is 0 (an unmatched final Buy is excluded, not counted as a
loss); and the log Buy@100, Sell@150, Buy@150, Sell@200 yields 1. -/
theorem C6_win_rate (trades : List Trade) :
    (trades.length < 2 → calculate_win_rate trades = 0) ∧
    (2 ≤ trades.length →
      calculate_win_rate trades =
        (winPairsSpec trades : ℚ) / ((trades.length / 2 : Nat) : ℚ)) ∧
    calculate_win_rate
      [Trade.mk 1 Side.buy 100 1, Trade.mk 2 Side.sell 150 1,
        Trade.mk 3 Side.buy 150 1, Trade.mk 4 Side.sell 200 1] = 1 := by
  refine ⟨?_, ?_, ?_⟩
  · intro h
    rw [calculate_win_rate, if_pos h]
  · intro h
    have h1 : ¬ trades.length < 2 := by omega
    have h2 : 0 < trades.length / 2 := by omega
    rw [calculate_win_rate, if_neg h1, if_pos h2, winCount_eq_spec]
  · norm_num [calculate_win_rate, winCount]

/-- Concrete instantiation of `C6_win_rate`: the empty log (fewer than
two trades) has win rate 0, and a losing single pair has win rate 0/1.  -/
theorem C6_win_rate_witness :
    calculate_win_rate [] = 0 ∧
    calculate_win_rate [Trade.mk 1 Side.buy 100 1, Trade.mk 2 Side.sell 90 1] =
      (winPairsSpec [Trade.mk 1 Side.buy 100 1, Trade.mk 2 Side.sell 90 1] : ℚ) /
        (([Trade.mk 1 Side.buy 100 1, Trade.mk 2 Side.sell 90 1].length / 2 :
          Nat) : ℚ) := by
  constructor
  · exact (C6_win_rate []).1 (by norm_num)
  · exact (C6_win_rate _).2.1 (by norm_num)

/-- C7 as stated is false: a two-bar backtest produces a one-element
return series, whose pandas sample std is NaN; the `std() == 0` guard is
False for NaN, so the Sharpe ratio is NaN — and the annualized
volatility of that series is NaN as well — contradicting "no reported
metric is ever NaN on degenerate inputs such as too few bars". -/
theorem C7_sharpe_nan_cex :
    calculate_sharpe (1 / 50)
        (dailyReturns (equityCurve 100000 (1 / 1000) (1 / 2000) [100, 100]
          [Signal.hold, Signal.hold])) = SharpeResult.nan ∧
    volatility
        (dailyReturns (equityCurve 100000 (1 / 1000) (1 / 2000) [100, 100]
          [Signal.hold, Signal.hold])) = VolResult.nan := by
  have hcurve : equityCurve 100000 (1 / 1000) (1 / 2000) [100, 100]
      [Signal.hold, Signal.hold] = [100000, 100000] := by
    norm_num [equityCurve, backtest, runAux, stepBar_hold]
  rw [hcurve]
  have hret : dailyReturns [(100000 : ℚ), 100000] = [0] := by
    norm_num [dailyReturns]
  rw [hret]
  constructor
  · rfl
  · rfl

/-- C7 amended: the sentinel behaviour holds exactly on the guarded
cases — Sharpe is the 0 sentinel on an empty return series and on zero
(defined) std — but a one-element return series (a two-bar backtest)
makes both Sharpe and the annualized volatility NaN; with at least two
returns neither metric is ever NaN. -/
theorem C7_sharpe_sentinels (rf : ℚ) (xs : List ℚ) :
    (xs = [] → calculate_sharpe rf xs = SharpeResult.zero) ∧
    (sampleVar? xs = some 0 → calculate_sharpe rf xs = SharpeResult.zero) ∧
    (xs.length = 1 →
      calculate_sharpe rf xs = SharpeResult.nan ∧
      volatility xs = VolResult.nan) ∧
    (2 ≤ xs.length →
      calculate_sharpe rf xs ≠ SharpeResult.nan ∧
      volatility xs ≠ VolResult.nan) := by
  refine ⟨?_, ?_, ?_, ?_⟩
  · intro h
    subst h
    rfl
  · intro h
    have hlen : ¬ xs.length < 2 := by
      intro hh
      rw [sampleVar?, if_pos hh] at h
      exact Option.noConfusion h
    have hlen0 : ¬ xs.length = 0 := by omega
    rw [calculate_sharpe, if_neg hlen0, h]
    simp
  · intro h
    have hv : sampleVar? xs = none := by
      rw [sampleVar?, if_pos (by omega)]
    have hlen0 : ¬ xs.length = 0 := by omega
    constructor
    · rw [calculate_sharpe, if_neg hlen0, hv]
    · rw [volatility, hv]
  · intro h
    have hlen : ¬ xs.length < 2 := by omega
    obtain ⟨v, hv⟩ : ∃ v, sampleVar? xs = some v := by
      rw [sampleVar?, if_neg hlen]
      exact ⟨_, rfl⟩
    have hlen0 : ¬ xs.length = 0 := by omega
    constructor
    · rw [calculate_sharpe, if_neg hlen0, hv]
      show (if v = 0 then SharpeResult.zero
        else SharpeResult.value (mean xs * 252 - rf) v) ≠ SharpeResult.nan
      split_ifs with hz
      · exact fun hh => SharpeResult.noConfusion hh
      · exact fun hh => SharpeResult.noConfusion hh
    · rw [volatility, hv]
      show VolResult.value v ≠ VolResult.nan
      exact fun hh => VolResult.noConfusion hh

/-- Concrete instantiation of `C7_sharpe_sentinels`: zero-variance
returns give the 0 sentinel, a singleton gives NaN, and two distinct
returns give a non-NaN Sharpe. -/
theorem C7_sharpe_sentinels_witness :
    calculate_sharpe 0 [0, 0] = SharpeResult.zero ∧
    calculate_sharpe 0 [5] = SharpeResult.nan ∧
    calculate_sharpe 0 [1, 2] ≠ SharpeResult.nan := by
  refine ⟨?_, ?_, ?_⟩
  · exact (C7_sharpe_sentinels 0 [0, 0]).2.1 (by norm_num [sampleVar?, mean])
  · exact ((C7_sharpe_sentinels 0 [5]).2.2.1 rfl).1
  · exact ((C7_sharpe_sentinels 0 [1, 2]).2.2.2 (by norm_num)).1

lemma pite_signal_eq_buy (A B : Prop) [Decidable A] [Decidable B] :
    (if A then Signal.buy else if B then Signal.sell else Signal.hold) =
      Signal.buy ↔ A := by
  constructor
  · intro h
    by_contra hA
    rw [if_neg hA] at h
    by_cases hB : B
    · rw [if_pos hB] at h
      exact Signal.noConfusion h
    · rw [if_neg hB] at h
      exact Signal.noConfusion h
  · intro hA
    rw [if_pos hA]

lemma pite_signal_eq_sell (A B : Prop) [Decidable A] [Decidable B] :
    (if A then Signal.buy else if B then Signal.sell else Signal.hold) =
      Signal.sell ↔ (¬A ∧ B) := by
  constructor
  · intro h
    by_cases hA : A
    · rw [if_pos hA] at h
      exact absurd h (fun hh => Signal.noConfusion hh)
    · rw [if_neg hA] at h
      by_cases hB : B
      · exact ⟨hA, hB⟩
      · rw [if_neg hB] at h
        exact absurd h (fun hh => Signal.noConfusion hh)
  · intro ⟨hA, hB⟩
    rw [if_neg hA, if_pos hB]

lemma pite_signal_eq_hold (A B : Prop) [Decidable A] [Decidable B]
    (hA : ¬A) (hB : ¬B) :
    (if A then Signal.buy else if B then Signal.sell else Signal.hold) =
      Signal.hold := by
  rw [if_neg hA, if_neg hB]

lemma nanGT_true_iff (a b : Option ℚ) :
    nanGT a b = true ↔ ∃ x y, a = some x ∧ b = some y ∧ y < x := by
  cases a <;> cases b <;> simp [nanGT]

lemma nanLT_true_iff (a b : Option ℚ) :
    nanLT a b = true ↔ ∃ x y, a = some x ∧ b = some y ∧ x < y := by
  cases a <;> cases b <;> simp [nanLT]

lemma nanLE_true_iff (a b : Option ℚ) :
    nanLE a b = true ↔ ∃ x y, a = some x ∧ b = some y ∧ x ≤ y := by
  cases a <;> cases b <;> simp [nanLE]

lemma nanGE_true_iff (a b : Option ℚ) :
    nanGE a b = true ↔ ∃ x y, a = some x ∧ b = some y ∧ y ≤ x := by
  cases a <;> cases b <;> simp [nanGE]

lemma rangeMap_getD {α : Type} (n : Nat) (f : Nat → α) (d : α) (i : Nat)
    (hi : i < n) : ((List.range n).map f).getD i d = f i := by
  rw [List.getD_eq_getElem _ _ (by simpa using hi)]
  simp

lemma nanGT_none_left (b : Option ℚ) : nanGT none b = false := by
  cases b <;> rfl

lemma nanLT_none_left (b : Option ℚ) : nanLT none b = false := by
  cases b <;> rfl

lemma smaSignalAt_buy_iff (wf ws : Nat) (closes : List ℚ) (i : Nat) :
    smaSignalAt wf ws closes i = Signal.buy ↔
      ∃ a b a' b', smaAt wf closes i = some a ∧ smaAt ws closes i = some b ∧
        smaAt wf closes (i - 1) = some a' ∧
        smaAt ws closes (i - 1) = some b' ∧ a' ≤ b' ∧ b < a := by
  rw [smaSignalAt, pite_signal_eq_buy]
  simp only [Bool.and_eq_true, nanGT_true_iff, nanLE_true_iff,
    Option.isSome_iff_exists]
  constructor
  · rintro ⟨⟨⟨⟨x, y, hx, hy, hxy⟩, ⟨x', y', hx', hy', hxy'⟩⟩, -⟩, -⟩
    exact ⟨x, y, x', y', hx, hy, hx', hy', hxy', hxy⟩
  · rintro ⟨a, b, a', b', ha, hb, ha', hb', hle, hlt⟩
    exact ⟨⟨⟨⟨a, b, ha, hb, hlt⟩, ⟨a', b', ha', hb', hle⟩⟩, ⟨a, ha⟩⟩, ⟨b, hb⟩⟩

lemma smaSignalAt_sell_iff (wf ws : Nat) (closes : List ℚ) (i : Nat) :
    smaSignalAt wf ws closes i = Signal.sell ↔
      ∃ a b a' b', smaAt wf closes i = some a ∧ smaAt ws closes i = some b ∧
        smaAt wf closes (i - 1) = some a' ∧
        smaAt ws closes (i - 1) = some b' ∧ b' ≤ a' ∧ a < b := by
  rw [smaSignalAt, pite_signal_eq_sell]
  simp only [Bool.and_eq_true, nanGT_true_iff, nanLT_true_iff,
    nanLE_true_iff, nanGE_true_iff, Option.isSome_iff_exists]
  constructor
  · rintro ⟨-, ⟨⟨⟨x, y, hx, hy, hxy⟩, ⟨x', y', hx', hy', hxy'⟩⟩, -⟩, -⟩
    exact ⟨x, y, x', y', hx, hy, hx', hy', hxy', hxy⟩
  · rintro ⟨a, b, a', b', ha, hb, ha', hb', hge, hlt⟩
    refine ⟨?_, ⟨⟨⟨a, b, ha, hb, hlt⟩, ⟨a', b', ha', hb', hge⟩⟩, ⟨a, ha⟩⟩,
      ⟨b, hb⟩⟩
    rintro ⟨⟨⟨⟨x, y, hx, hy, hxy⟩, -⟩, -⟩, -⟩
    rw [ha] at hx
    rw [hb] at hy
    obtain rfl : a = x := Option.some.inj hx
    obtain rfl : b = y := Option.some.inj hy
    exact absurd hxy (lt_asymm hlt)

lemma smaSignalAt_hold_of_none (wf ws : Nat) (closes : List ℚ) (i : Nat)
    (h : smaAt wf closes i = none ∨ smaAt ws closes i = none ∨
      smaAt wf closes (i - 1) = none ∨ smaAt ws closes (i - 1) = none) :
    smaSignalAt wf ws closes i = Signal.hold := by
  rw [smaSignalAt]
  apply pite_signal_eq_hold
  · simp only [Bool.and_eq_true, nanGT_true_iff, nanLE_true_iff,
      Option.isSome_iff_exists]
    rintro ⟨⟨⟨⟨x, y, hx, hy, -⟩, ⟨x', y', hx', hy', -⟩⟩, -⟩, -⟩
    rcases h with h | h | h | h
    · rw [h] at hx
      exact Option.noConfusion hx
    · rw [h] at hy
      exact Option.noConfusion hy
    · rw [h] at hx'
      exact Option.noConfusion hx'
    · rw [h] at hy'
      exact Option.noConfusion hy'
  · simp only [Bool.and_eq_true, nanLT_true_iff, nanGE_true_iff,
      Option.isSome_iff_exists]
    rintro ⟨⟨⟨⟨x, y, hx, hy, -⟩, ⟨x', y', hx', hy', -⟩⟩, -⟩, -⟩
    rcases h with h | h | h | h
    · rw [h] at hx
      exact Option.noConfusion hx
    · rw [h] at hy
      exact Option.noConfusion hy
    · rw [h] at hx'
      exact Option.noConfusion hx'
    · rw [h] at hy'
      exact Option.noConfusion hy'

lemma emaSignalAt_buy_iff (nf ns : Nat) (closes : List ℚ) (i : Nat) :
    emaSignalAt nf ns closes i = Signal.buy ↔
      (emaAt nf closes (i - 1) ≤ emaAt ns closes (i - 1) ∧
        emaAt ns closes i < emaAt nf closes i) := by
  rw [emaSignalAt, pite_signal_eq_buy]
  constructor
  · intro h
    exact ⟨h.2, h.1⟩
  · intro h
    exact ⟨h.2, h.1⟩

lemma emaSignalAt_sell_iff (nf ns : Nat) (closes : List ℚ) (i : Nat) :
    emaSignalAt nf ns closes i = Signal.sell ↔
      (emaAt ns closes (i - 1) ≤ emaAt nf closes (i - 1) ∧
        emaAt nf closes i < emaAt ns closes i) := by
  rw [emaSignalAt, pite_signal_eq_sell]
  constructor
  · rintro ⟨-, h⟩
    exact ⟨h.2, h.1⟩
  · rintro ⟨h1, h2⟩
    refine ⟨?_, h2, h1⟩
    rintro ⟨hgt, -⟩
    exact absurd hgt (lt_asymm h2)

lemma rsiSignalAt_buy_iff (w : Nat) (os ob : ℚ) (closes : List ℚ) (i : Nat) :
    rsiSignalAt w os ob closes i = Signal.buy ↔
      ∃ r r', rsiAt w closes i = some r ∧ rsiAt w closes (i - 1) = some r' ∧
        r' ≤ os ∧ os < r := by
  rw [rsiSignalAt, pite_signal_eq_buy]
  simp only [Bool.and_eq_true, nanGT_true_iff, nanLE_true_iff]
  constructor
  · rintro ⟨⟨x, y, hx, hy, hxy⟩, ⟨x', y', hx', hy', hxy'⟩⟩
    obtain rfl : os = y := Option.some.inj hy
    obtain rfl : os = y' := Option.some.inj hy'
    exact ⟨x, x', hx, hx', hxy', hxy⟩
  · rintro ⟨r, r', hr, hr', hle, hlt⟩
    exact ⟨⟨r, os, hr, rfl, hlt⟩, ⟨r', os, hr', rfl, hle⟩⟩

lemma rsiSignalAt_sell_iff (w : Nat) (os ob : ℚ) (closes : List ℚ) (i : Nat) :
    rsiSignalAt w os ob closes i = Signal.sell ↔
      ∃ r r', rsiAt w closes i = some r ∧ rsiAt w closes (i - 1) = some r' ∧
        ob ≤ r' ∧ r < ob := by
  rw [rsiSignalAt, pite_signal_eq_sell]
  simp only [Bool.and_eq_true, nanGT_true_iff, nanLE_true_iff,
    nanLT_true_iff, nanGE_true_iff]
  constructor
  · rintro ⟨-, ⟨x, y, hx, hy, hxy⟩, ⟨x', y', hx', hy', hxy'⟩⟩
    obtain rfl : ob = y := Option.some.inj hy
    obtain rfl : ob = y' := Option.some.inj hy'
    exact ⟨x, x', hx, hx', hxy', hxy⟩
  · rintro ⟨r, r', hr, hr', hge, hlt⟩
    refine ⟨?_, ⟨r, ob, hr, rfl, hlt⟩, ⟨r', ob, hr', rfl, hge⟩⟩
    rintro ⟨⟨x, y, hx, hy, hxy⟩, ⟨x', y', hx', hy', hxy'⟩⟩
    obtain rfl : os = y := Option.some.inj hy
    obtain rfl : os = y' := Option.some.inj hy'
    rw [hr] at hx
    rw [hr'] at hx'
    obtain rfl : r = x := Option.some.inj hx
    obtain rfl : r' = x' := Option.some.inj hx'
    have hcon : os < os := lt_of_lt_of_le (lt_trans hxy hlt)
      (le_trans hge hxy')
    exact absurd hcon (lt_irrefl os)

lemma rsiSignalAt_hold_of_none (w : Nat) (os ob : ℚ) (closes : List ℚ)
    (i : Nat)
    (h : rsiAt w closes i = none ∨ rsiAt w closes (i - 1) = none) :
    rsiSignalAt w os ob closes i = Signal.hold := by
  rw [rsiSignalAt]
  apply pite_signal_eq_hold
  · simp only [Bool.and_eq_true, nanGT_true_iff, nanLE_true_iff]
    rintro ⟨⟨x, y, hx, -, -⟩, ⟨x', y', hx', -, -⟩⟩
    rcases h with h | h
    · rw [h] at hx
      exact Option.noConfusion hx
    · rw [h] at hx'
      exact Option.noConfusion hx'
  · simp only [Bool.and_eq_true, nanLT_true_iff, nanGE_true_iff]
    rintro ⟨⟨x, y, hx, -, -⟩, ⟨x', y', hx', -, -⟩⟩
    rcases h with h | h
    · rw [h] at hx
      exact Option.noConfusion hx
    · rw [h] at hx'
      exact Option.noConfusion hx'

lemma macdSignalAt_buy_iff (nf ns nsig : Nat) (closes : List ℚ) (i : Nat) :
    macdSignalAt nf ns nsig closes i = Signal.buy ↔
      (macdAt nf ns closes (i - 1) ≤ macdSignalLineAt nf ns nsig closes (i - 1) ∧
        macdSignalLineAt nf ns nsig closes i < macdAt nf ns closes i) := by
  rw [macdSignalAt, pite_signal_eq_buy]
  constructor
  · intro h
    exact ⟨h.2, h.1⟩
  · intro h
    exact ⟨h.2, h.1⟩

lemma macdSignalAt_sell_iff (nf ns nsig : Nat) (closes : List ℚ) (i : Nat) :
    macdSignalAt nf ns nsig closes i = Signal.sell ↔
      (macdSignalLineAt nf ns nsig closes (i - 1) ≤ macdAt nf ns closes (i - 1) ∧
        macdAt nf ns closes i < macdSignalLineAt nf ns nsig closes i) := by
  rw [macdSignalAt, pite_signal_eq_sell]
  constructor
  · rintro ⟨-, h⟩
    exact ⟨h.2, h.1⟩
  · rintro ⟨h1, h2⟩
    refine ⟨?_, h2, h1⟩
    rintro ⟨hgt, -⟩
    exact absurd hgt (lt_asymm h2)

/-- C3: every signal generator emits Hold at index 0; at every later bar
it emits Buy exactly when the fast quantity was ≤ the slow quantity at
the previous bar and is > it at the current bar, Sell exactly when it
was ≥ and is now <, and it emits Hold whenever a compared quantity is
undefined (NaN), as during the SMA/RSI rolling warm-up.  For SMA the
compared quantities are the two rolling means; for EMA the two
exponential means (always defined); for RSI the RSI value against the
oversold (Buy) and overbought (Sell) thresholds; for MACD the MACD line
against its signal line (always defined). -/
theorem C3_crossover_rules (wf ws wr : Nat) (os ob : ℚ) (nf ns nsig : Nat)
    (closes : List ℚ) (hwf : 1 ≤ wf) (hws : 1 ≤ ws) (hwr : 1 ≤ wr) :
    ((smaSignals wf ws closes).length = closes.length ∧
      (0 < closes.length →
        (smaSignals wf ws closes).getD 0 Signal.buy = Signal.hold) ∧
      ∀ i, 1 ≤ i → i < closes.length →
        ((smaSignals wf ws closes).getD i Signal.buy = Signal.buy ↔
          ∃ a b a' b', smaAt wf closes i = some a ∧
            smaAt ws closes i = some b ∧
            smaAt wf closes (i - 1) = some a' ∧
            smaAt ws closes (i - 1) = some b' ∧ a' ≤ b' ∧ b < a) ∧
        ((smaSignals wf ws closes).getD i Signal.buy = Signal.sell ↔
          ∃ a b a' b', smaAt wf closes i = some a ∧
            smaAt ws closes i = some b ∧
            smaAt wf closes (i - 1) = some a' ∧
            smaAt ws closes (i - 1) = some b' ∧ b' ≤ a' ∧ a < b) ∧
        ((smaAt wf closes i = none ∨ smaAt ws closes i = none ∨
            smaAt wf closes (i - 1) = none ∨
            smaAt ws closes (i - 1) = none) →
          (smaSignals wf ws closes).getD i Signal.buy = Signal.hold)) ∧
    ((emaSignals nf ns closes).length = closes.length ∧
      (0 < closes.length →
        (emaSignals nf ns closes).getD 0 Signal.buy = Signal.hold) ∧
      ∀ i, 1 ≤ i → i < closes.length →
        ((emaSignals nf ns closes).getD i Signal.buy = Signal.buy ↔
          (emaAt nf closes (i - 1) ≤ emaAt ns closes (i - 1) ∧
            emaAt ns closes i < emaAt nf closes i)) ∧
        ((emaSignals nf ns closes).getD i Signal.buy = Signal.sell ↔
          (emaAt ns closes (i - 1) ≤ emaAt nf closes (i - 1) ∧
            emaAt nf closes i < emaAt ns closes i))) ∧
    ((rsiSignals wr os ob closes).length = closes.length ∧
      (0 < closes.length →
        (rsiSignals wr os ob closes).getD 0 Signal.buy = Signal.hold) ∧
      ∀ i, 1 ≤ i → i < closes.length →
        ((rsiSignals wr os ob closes).getD i Signal.buy = Signal.buy ↔
          ∃ r r', rsiAt wr closes i = some r ∧
            rsiAt wr closes (i - 1) = some r' ∧ r' ≤ os ∧ os < r) ∧
        ((rsiSignals wr os ob closes).getD i Signal.buy = Signal.sell ↔
          ∃ r r', rsiAt wr closes i = some r ∧
            rsiAt wr closes (i - 1) = some r' ∧ ob ≤ r' ∧ r < ob) ∧
        ((rsiAt wr closes i = none ∨ rsiAt wr closes (i - 1) = none) →
          (rsiSignals wr os ob closes).getD i Signal.buy = Signal.hold)) ∧
    ((macdSignals nf ns nsig closes).length = closes.length ∧
      (0 < closes.length →
        (macdSignals nf ns nsig closes).getD 0 Signal.buy = Signal.hold) ∧
      ∀ i, 1 ≤ i → i < closes.length →
        ((macdSignals nf ns nsig closes).getD i Signal.buy = Signal.buy ↔
          (macdAt nf ns closes (i - 1) ≤
              macdSignalLineAt nf ns nsig closes (i - 1) ∧
            macdSignalLineAt nf ns nsig closes i < macdAt nf ns closes i)) ∧
        ((macdSignals nf ns nsig closes).getD i Signal.buy = Signal.sell ↔
          (macdSignalLineAt nf ns nsig closes (i - 1) ≤
              macdAt nf ns closes (i - 1) ∧
            macdAt nf ns closes i <
              macdSignalLineAt nf ns nsig closes i))) := by
  refine ⟨⟨?_, ?_, ?_⟩, ⟨?_, ?_, ?_⟩, ⟨?_, ?_, ?_⟩, ⟨?_, ?_, ?_⟩⟩
  · simp [smaSignals]
  · intro h
    rw [smaSignals, rangeMap_getD _ _ _ 0 h]
    rfl
  · intro i h1 hi
    have h0 : ¬ i = 0 := by omega
    have hAt : (smaSignals wf ws closes).getD i Signal.buy =
        smaSignalAt wf ws closes i := by
      rw [smaSignals, rangeMap_getD _ _ _ i hi, if_neg h0]
    rw [hAt]
    exact ⟨smaSignalAt_buy_iff wf ws closes i,
      smaSignalAt_sell_iff wf ws closes i,
      smaSignalAt_hold_of_none wf ws closes i⟩
  · simp [emaSignals]
  · intro h
    rw [emaSignals, rangeMap_getD _ _ _ 0 h]
    rfl
  · intro i h1 hi
    have h0 : ¬ i = 0 := by omega
    have hAt : (emaSignals nf ns closes).getD i Signal.buy =
        emaSignalAt nf ns closes i := by
      rw [emaSignals, rangeMap_getD _ _ _ i hi, if_neg h0]
    rw [hAt]
    exact ⟨emaSignalAt_buy_iff nf ns closes i,
      emaSignalAt_sell_iff nf ns closes i⟩
  · simp [rsiSignals]
  · intro h
    rw [rsiSignals, rangeMap_getD _ _ _ 0 h]
    rfl
  · intro i h1 hi
    have h0 : ¬ i = 0 := by omega
    have hAt : (rsiSignals wr os ob closes).getD i Signal.buy =
        rsiSignalAt wr os ob closes i := by
      rw [rsiSignals, rangeMap_getD _ _ _ i hi, if_neg h0]
    rw [hAt]
    exact ⟨rsiSignalAt_buy_iff wr os ob closes i,
      rsiSignalAt_sell_iff wr os ob closes i,
      rsiSignalAt_hold_of_none wr os ob closes i⟩
  · simp [macdSignals]
  · intro h
    rw [macdSignals, rangeMap_getD _ _ _ 0 h]
    rfl
  · intro i h1 hi
    have h0 : ¬ i = 0 := by omega
    have hAt : (macdSignals nf ns nsig closes).getD i Signal.buy =
        macdSignalAt nf ns nsig closes i := by
      rw [macdSignals, rangeMap_getD _ _ _ i hi, if_neg h0]
    rw [hAt]
    exact ⟨macdSignalAt_buy_iff nf ns nsig closes i,
      macdSignalAt_sell_iff nf ns nsig closes i⟩

/-- Concrete instantiation of `C3_crossover_rules`: on closes
`[3, 1, 5]` the SMA(1) crosses the SMA(2) from below between bars 1 and
2 (1 ≤ 2 before, 5 > 3 now), so bar 2 emits Buy. -/
theorem C3_crossover_rules_witness :
    (smaSignals 1 2 [3, 1, 5]).getD 2 Signal.buy = Signal.buy := by
  have h := (C3_crossover_rules 1 2 2 30 70 1 1 1 [3, 1, 5] le_rfl
    (by norm_num) (by norm_num)).1.2.2 2 (by norm_num) (by norm_num)
  refine h.1.mpr ⟨5, 3, 1, 2, ?_, ?_, ?_, ?_, by norm_num, by norm_num⟩
  · norm_num [smaAt]
  · norm_num [smaAt]
  · norm_num [smaAt]
  · norm_num [smaAt]

lemma gainAt_nonneg (closes : List ℚ) (i : Nat) : 0 ≤ gainAt closes i := by
  cases hd : deltaAt closes i with
  | none => simp [gainAt, hd]
  | some d =>
      simp only [gainAt, hd]
      split_ifs with h
      · exact le_of_lt h
      · exact le_refl 0

lemma lossAt_nonneg (closes : List ℚ) (i : Nat) : 0 ≤ lossAt closes i := by
  cases hd : deltaAt closes i with
  | none => simp [lossAt, hd]
  | some d =>
      simp only [lossAt, hd]
      split_ifs with h
      · linarith
      · exact le_refl 0

lemma avgGainAt_nonneg (w : Nat) (closes : List ℚ) (i : Nat) (g : ℚ)
    (h : avgGainAt w closes i = some g) : 0 ≤ g := by
  rw [avgGainAt] at h
  split_ifs at h with hw
  rw [← Option.some.inj h]
  apply div_nonneg
  · apply List.sum_nonneg
    intro x hx
    simp only [List.mem_map] at hx
    obtain ⟨j, -, rfl⟩ := hx
    exact gainAt_nonneg closes (i - j)
  · exact Nat.cast_nonneg w

lemma avgLossAt_nonneg (w : Nat) (closes : List ℚ) (i : Nat) (l : ℚ)
    (h : avgLossAt w closes i = some l) : 0 ≤ l := by
  rw [avgLossAt] at h
  split_ifs at h with hw
  rw [← Option.some.inj h]
  apply div_nonneg
  · apply List.sum_nonneg
    intro x hx
    simp only [List.mem_map] at hx
    obtain ⟨j, -, rfl⟩ := hx
    exact lossAt_nonneg closes (i - j)
  · exact Nat.cast_nonneg w

/-- RSI values never exceed 100 (they are `100 - 100/(1+rs)` with
`rs ≥ 0`, or exactly 100 in the infinite-`rs` case). -/
lemma rsiAt_le_100 (w : Nat) (closes : List ℚ) (i : Nat) (r : ℚ)
    (h : rsiAt w closes i = some r) : r ≤ 100 := by
  rw [rsiAt] at h
  cases hg : avgGainAt w closes i with
  | none =>
      rw [hg] at h
      exact Option.noConfusion h
  | some g =>
      cases hl : avgLossAt w closes i with
      | none =>
          rw [hg, hl] at h
          exact Option.noConfusion h
      | some l =>
          rw [hg, hl] at h
          simp only at h
          split_ifs at h with h0 h1
          · exact le_of_eq (Option.some.inj h).symm
          · rw [← Option.some.inj h]
            have hgn : 0 ≤ g := avgGainAt_nonneg w closes i g hg
            have hln : 0 ≤ l := avgLossAt_nonneg w closes i l hl
            have hlp : 0 < l := lt_of_le_of_ne hln (Ne.symm h0)
            have hrs : 0 ≤ g / l := div_nonneg hgn (le_of_lt hlp)
            have hden : (0 : ℚ) < 1 + g / l := by linarith
            have hq : 0 < 100 / (1 + g / l) := by positivity
            linarith

/-- C8 as stated is false: a zero-average-loss bar is not always Hold.
With period 2 on closes `[10, 5, 6, 7]`, bar 3 has zero average loss
(both window deltas are gains), so RSI jumps to 100 from 50/3 and the
generator emits Buy at that bar, not Hold. -/
theorem C8_rsi_zero_loss_cex :
    avgLossAt 2 [10, 5, 6, 7] 3 = some 0 ∧
    (rsiSignals 2 30 70 [10, 5, 6, 7]).getD 3 Signal.hold = Signal.buy := by
  constructor
  · norm_num [avgLossAt, lossAt, deltaAt, List.range_succ, List.getD]
  · rw [rsiSignals, rangeMap_getD _ _ _ 3 (by norm_num)]
    norm_num [rsiSignalAt, rsiAt, avgGainAt, avgLossAt, gainAt, lossAt,
      deltaAt, nanGT, nanLE, nanLT, nanGE, List.range_succ, List.getD]

/-- C8 amended: a zero-average-loss bar raises no error, and splits in
two: if the average gain in the window is also zero, RS is `0/0` (NaN),
the RSI is NaN, and the bar is Hold; if the average gain is positive,
RS is `+inf` and the RSI is exactly 100 — such a bar can never emit
Sell, but it emits Buy exactly when the previous RSI was defined and
≤ oversold with oversold < 100 (a genuine upward cross, as the
counterexample shows). -/
theorem C8_rsi_zero_loss (w : Nat) (os ob : ℚ) (closes : List ℚ) (i : Nat)
    (hl : avgLossAt w closes i = some 0) :
    (avgGainAt w closes i = some 0 → rsiAt w closes i = none ∧
      rsiSignalAt w os ob closes i = Signal.hold) ∧
    (avgGainAt w closes i ≠ some 0 → rsiAt w closes i = some 100) ∧
    rsiSignalAt w os ob closes i ≠ Signal.sell ∧
    (rsiSignalAt w os ob closes i = Signal.buy ↔
      rsiAt w closes i = some 100 ∧ os < 100 ∧
      nanLE (rsiAt w closes (i - 1)) (some os) = true) := by
  have hw : ¬ i + 1 < w := by
    intro hh
    rw [avgLossAt, if_pos hh] at hl
    exact Option.noConfusion hl
  obtain ⟨g, hg⟩ : ∃ g, avgGainAt w closes i = some g := by
    rw [avgGainAt, if_neg hw]
    exact ⟨_, rfl⟩
  have hnan : avgGainAt w closes i = some 0 → rsiAt w closes i = none := by
    intro h0
    rw [rsiAt, h0, hl]
    simp
  have h100 : avgGainAt w closes i ≠ some 0 → rsiAt w closes i = some 100 := by
    intro hne
    have hgne : ¬ g = 0 := by
      intro hh
      rw [hh] at hg
      exact hne hg
    rw [rsiAt, hg, hl]
    simp [hgne]
  have hdichotomy : rsiAt w closes i = none ∨ rsiAt w closes i = some 100 := by
    by_cases h0 : avgGainAt w closes i = some 0
    · exact Or.inl (hnan h0)
    · exact Or.inr (h100 h0)
  refine ⟨?_, h100, ?_, ?_⟩
  · intro h0
    refine ⟨hnan h0, ?_⟩
    exact rsiSignalAt_hold_of_none w os ob closes i (Or.inl (hnan h0))
  · intro hsell
    obtain ⟨r, r', hr, hr', hge, hlt⟩ :=
      (rsiSignalAt_sell_iff w os ob closes i).mp hsell
    rcases hdichotomy with hd | hd
    · rw [hd] at hr
      exact Option.noConfusion hr
    · rw [hd] at hr
      obtain rfl : (100 : ℚ) = r := Option.some.inj hr
      have hub : r' ≤ 100 := rsiAt_le_100 w closes (i - 1) r' hr'
      linarith
  · constructor
    · intro hbuy
      obtain ⟨r, r', hr, hr', hle, hlt⟩ :=
        (rsiSignalAt_buy_iff w os ob closes i).mp hbuy
      rcases hdichotomy with hd | hd
      · rw [hd] at hr
        exact Option.noConfusion hr
      · rw [hd] at hr
        obtain rfl : (100 : ℚ) = r := Option.some.inj hr
        exact ⟨hd, hlt, (nanLE_true_iff _ _).mpr ⟨r', os, hr', rfl, hle⟩⟩
    · rintro ⟨h100i, hos, hleb⟩
      apply (rsiSignalAt_buy_iff w os ob closes i).mpr
      obtain ⟨x, y, hx, hy, hxy⟩ := (nanLE_true_iff _ _).mp hleb
      obtain rfl : os = y := Option.some.inj hy
      exact ⟨100, x, h100i, hx, hxy, hos⟩

/-- Concrete instantiation of `C8_rsi_zero_loss` on the zero-loss bar of
the counterexample series: RSI is exactly 100 there and the bar cannot
be a Sell. -/
theorem C8_rsi_zero_loss_witness :
    rsiAt 2 [10, 5, 6, 7] 3 = some 100 ∧
    rsiSignalAt 2 30 70 [10, 5, 6, 7] 3 ≠ Signal.sell := by
  have h := C8_rsi_zero_loss 2 30 70 [10, 5, 6, 7] 3
    (by norm_num [avgLossAt, lossAt, deltaAt, List.range_succ, List.getD])
  refine ⟨h.2.1 ?_, h.2.2.1⟩
  norm_num [avgGainAt, gainAt, deltaAt, List.range_succ, List.getD]

end PyBacktest
